import Mathlib

/-!
Verification development for the wallet projection engine
(`chia/wallet/simple_wallet/simple_wallet_state_manager.py`) and the
singleton history engine (specified in the repository spec and exercised by
`tests/core/full_node/stores/test_singleton_store.py`).

The Python source is shallowly embedded: 32-byte hashes and public keys are
abstracted as natural numbers, machine integers (uint32/uint64/uint128) are
naturals (no wrap occurs in the modelled paths; the one subtraction that can
go negative in Python, `current_height - 1`, is modelled over Int), SQL
tables are association lists keyed exactly like their primary keys, and all
network collaborators (peer fetches, timestamps) are read-only environment
functions.  Randomness (`token_bytes()` transaction names) is modelled by a
fresh-name counter threaded through the state.
-/

deriving instance DecidableEq for Except

/-! ## Transaction and wallet type constants (chia.wallet.util) -/

def INCOMING_TX : Nat := 0
def OUTGOING_TX : Nat := 1
def COINBASE_REWARD : Nat := 2
def FEE_REWARD : Nat := 3
def INCOMING_TRADE : Nat := 4
def OUTGOING_TRADE : Nat := 5

def STANDARD_WALLET : Nat := 0
def RATE_LIMITED : Nat := 1
def COLOURED_COIN : Nat := 6
def DISTRIBUTED_ID : Nat := 8
def POOLING_WALLET : Nat := 9

/-! ## Data model (spec section 3) -/

/-- Coin: `(parent_coin_info, puzzle_hash, amount)`; hashes are abstracted
as naturals. -/
structure Coin where
  parent_coin_info : Nat
  puzzle_hash : Nat
  amount : Nat
deriving DecidableEq, Repr

/-- The coin's name is the hash of its serialization; modelled by an
injective pairing of the three fields. -/
def Coin.name (c : Coin) : Nat :=
  Nat.pair c.parent_coin_info (Nat.pair c.puzzle_hash c.amount)

/-- Wire-level coin state: both heights absent is the reorged-out
sentinel. -/
structure CoinState where
  coin : Coin
  created_height : Option Nat
  spent_height : Option Nat
deriving DecidableEq, Repr

/-- WalletCoinRecord as stored by the wallet coin ledger
(`spent_height = 0` means unspent, mirrored by the `spent` flag). -/
structure WalletCoinRecord where
  coin : Coin
  confirmed_height : Nat
  spent_height : Nat
  spent : Bool
  coinbase : Bool
  wallet_type : Nat
  wallet_id : Nat
deriving DecidableEq, Repr

/-- TransactionRecord; the Python field `type` is called `tx_type` here,
`spend_bundle`/`trade_id` (always `None` in the modelled paths) are dropped
and `sent_to` entries are abstracted as naturals. -/
structure TransactionRecord where
  name : Nat
  confirmed_at_height : Nat
  created_at_time : Nat
  to_puzzle_hash : Nat
  amount : Nat
  fee_amount : Nat
  confirmed : Bool
  sent : Nat
  sent_to : List Nat
  additions : List Coin
  removals : List Coin
  wallet_id : Nat
  tx_type : Nat
deriving DecidableEq, Repr

/-- DerivationRecord of the derivation index. -/
structure DerivationRecord where
  index : Nat
  puzzle_hash : Nat
  pubkey : Nat
  wallet_type : Nat
  wallet_id : Nat
deriving DecidableEq, Repr

/-! ## Coin ledger (WalletCoinStore), keyed by coin name -/

def findCoinRecord (l : List WalletCoinRecord) (n : Nat) : Option WalletCoinRecord :=
  l.find? (fun r => r.coin.name == n)

def addCoinRecord (r : WalletCoinRecord) (l : List WalletCoinRecord) : List WalletCoinRecord :=
  r :: l.filter (fun x => x.coin.name != r.coin.name)

def setSpent (n h : Nat) (l : List WalletCoinRecord) : List WalletCoinRecord :=
  l.map (fun r => if r.coin.name == n then { r with spent_height := h, spent := true } else r)

/-- Effect of `rollback_to_block` on one record: delete if confirmed above
the height, clear the spend if spent above it. -/
def coinRollbackRecord (h : Nat) (r : WalletCoinRecord) : Option WalletCoinRecord :=
  if h < r.confirmed_height then none
  else if h < r.spent_height then some { r with spent_height := 0, spent := false }
  else some r

def coinRollbackToBlock (h : Nat) (l : List WalletCoinRecord) : List WalletCoinRecord :=
  l.filterMap (coinRollbackRecord h)

def getUnspentCoinsForWallet (wid : Nat) (l : List WalletCoinRecord) : List WalletCoinRecord :=
  l.filter (fun r => !r.spent && r.wallet_id == wid)

/-! ## Transaction ledger (WalletTransactionStore), keyed by tx name -/

def addTransactionRecord (t : TransactionRecord) (l : List TransactionRecord) : List TransactionRecord :=
  t :: l.filter (fun x => x.name != t.name)

def setConfirmedTx (n h : Nat) (l : List TransactionRecord) : List TransactionRecord :=
  l.map (fun t => if t.name == n then { t with confirmed := true, confirmed_at_height := h } else t)

def getUnconfirmedForWallet (wid : Nat) (l : List TransactionRecord) : List TransactionRecord :=
  l.filter (fun t => !t.confirmed && t.wallet_id == wid)

def getAllUnconfirmed (l : List TransactionRecord) : List TransactionRecord :=
  l.filter (fun t => !t.confirmed)

def getAllTransactionsForWalletOfType (wid ty : Nat) (l : List TransactionRecord) : List TransactionRecord :=
  l.filter (fun t => t.wallet_id == wid && t.tx_type == ty)

def getTransactionAbove (h : Nat) (l : List TransactionRecord) : List TransactionRecord :=
  l.filter (fun t => decide (h < t.confirmed_at_height))

def txRollbackToBlock (h : Nat) (l : List TransactionRecord) : List TransactionRecord :=
  l.filter (fun t => decide (t.confirmed_at_height ≤ h))

/-- Model of `tx_reorged`: re-queue a reorged transaction as unconfirmed. -/
def txReorged (t : TransactionRecord) (l : List TransactionRecord) : List TransactionRecord :=
  addTransactionRecord
    { t with confirmed := false, confirmed_at_height := 0, sent := 0, sent_to := [] } l

/-! ## Environment and mutable state of the state manager -/

/-- Read-only collaborators of `SimpleWalletStateManager`: puzzle-store
lookups that the modelled operations never mutate, the interested store, the
wallet registry's `type()` map, reward parent ids, the network layer and the
trade manager's coins of interest. -/
structure WalletEnv where
  wallet_info_for_puzzle_hash : Nat → Option (Nat × Nat)
  interested_puzzle_hash_wallet_id : Nat → Option Nat
  index_for_puzzle_hash : Nat → Option Nat
  derivation_record_for_puzzle_hash : Nat → Option Nat
  wallet_type_of : Nat → Nat
  pool_parent_id : Nat → Nat
  farmer_parent_id : Nat → Nat
  fetch_children : Nat → List Coin
  reserved_fee : Nat → Nat → Nat
  timestamp_for_height : Nat → Nat
  trade_removal : Nat → Bool
  trade_addition : Nat → Bool

/-- Mutable state touched by the modelled operations: the coin ledger, the
transaction ledger, the puzzle store's used-up-to pointer, a fresh-name
counter standing in for `token_bytes()`, and the emitted
`state_changed` events (newest first). -/
structure WalletState where
  coin_records : List WalletCoinRecord
  tx_records : List TransactionRecord
  used_up_to : Option Nat
  next_tx_name : Nat
  events : List (String × Nat)
deriving DecidableEq, Repr

/-- Monotone `set_used_up_to`. -/
def setUsedUpTo (i : Nat) (s : Option Nat) : Option Nat :=
  match s with
  | none => some i
  | some u => some (max u i)

/-! ## Balances (claim C1) -/

/-- does_coin_belong_to_wallet: true when the puzzle store knows the coin's
puzzle hash for this wallet id. -/
def doesCoinBelongToWallet (env : WalletEnv) (c : Coin) (wid : Nat) : Bool :=
  match env.wallet_info_for_puzzle_hash c.puzzle_hash with
  | none => false
  | some (coin_wallet_id, _) => coin_wallet_id == wid

/-- get_confirmed_balance_for_wallet: sum of unspent amounts. -/
def getConfirmedBalanceForWallet (s : WalletState) (wid : Nat) : Nat :=
  (getUnspentCoinsForWallet wid s.coin_records).foldl (fun a r => a + r.coin.amount) 0

/-- Inner loop of get_unconfirmed_balance: accumulate removal amounts
(unfiltered) and addition amounts (filtered by ownership) over the
unconfirmed transactions. -/
def removalAdditionLoop (env : WalletEnv) (wid : Nat) :
    List TransactionRecord → Nat × Nat
  | [] => (0, 0)
  | t :: rest =>
    let (rm, ad) := removalAdditionLoop env wid rest
    (t.removals.foldl (fun a c => a + c.amount) rm,
     t.additions.foldl (fun a c => if doesCoinBelongToWallet env c wid then a + c.amount else a) ad)

/-- get_unconfirmed_balance; the Python `uint128(result)` range check is
dropped, the value is returned as an integer. -/
def getUnconfirmedBalance (env : WalletEnv) (s : WalletState) (wid : Nat) : Int :=
  let confirmed := getConfirmedBalanceForWallet s wid
  let unconfirmed_tx := getUnconfirmedForWallet wid s.tx_records
  let (removal_amount, addition_amount) := removalAdditionLoop env wid unconfirmed_tx
  (confirmed : Int) - removal_amount + addition_amount

/-- Sum of removal amounts of a transaction. -/
def removalSum (t : TransactionRecord) : Nat :=
  (t.removals.map (fun c => c.amount)).sum

/-- Sum of addition amounts of a transaction restricted to coins whose
puzzle hash belongs to the wallet. -/
def additionOwnSum (env : WalletEnv) (wid : Nat) (t : TransactionRecord) : Nat :=
  ((t.additions.filter (fun c => doesCoinBelongToWallet env c wid)).map (fun c => c.amount)).sum

/-- The balance formula exactly as claim C1 words it: confirmed minus
unconfirmed removals minus owned unconfirmed additions. -/
def claimC1Formula (env : WalletEnv) (s : WalletState) (wid : Nat) : Int :=
  (getConfirmedBalanceForWallet s wid : Int)
    - ((getUnconfirmedForWallet wid s.tx_records).map removalSum).sum
    - ((getUnconfirmedForWallet wid s.tx_records).map (additionOwnSum env wid)).sum

/-! ## Reward detection (is_pool_reward / is_farmer_reward) -/

/-- is_pool_reward: the parent id equals `pool_parent_id(created - i)` for
some `i < 30` with `created - i ≥ 0` (the Python loop breaks once the height
goes negative, which coincides with guarding on `i ≤ created`). -/
def isPoolReward (env : WalletEnv) (created parent : Nat) : Bool :=
  (List.range 30).any (fun i => decide (i ≤ created) && env.pool_parent_id (created - i) == parent)

/-- is_farmer_reward, same 30-height window over `farmer_parent_id`. -/
def isFarmerReward (env : WalletEnv) (created parent : Nat) : Bool :=
  (List.range 30).any (fun i => decide (i ≤ created) && env.farmer_parent_id (created - i) == parent)

/-! ## coin_added (claim C5) -/

/-- Loop `for record in records: if not record.confirmed: set_confirmed`. -/
def confirmRecords (height : Nat) (records : List TransactionRecord)
    (txs : List TransactionRecord) : List TransactionRecord :=
  records.foldl (fun acc r => if r.confirmed then acc else setConfirmedTx r.name height acc) txs

/-- coin_added: classify the new coin (change / coinbase / fee reward /
confirmation of an outgoing record / incoming), write the coin record,
emit the `coin_added` event.  The CC/DID wallet callback is an external
effect and is not part of the modelled state. -/
def coinAdded (env : WalletEnv) (s : WalletState) (coin : Coin)
    (coinbase fee_reward : Bool) (wallet_id wallet_type height : Nat)
    (all_outgoing : List TransactionRecord) : WalletState × WalletCoinRecord :=
  let parentRec := findCoinRecord s.coin_records coin.parent_coin_info
  let change := match parentRec with
    | some pr => wallet_type == pr.wallet_type
    | none => false
  let farm_reward := coinbase || fee_reward
  let txs1 :=
    if coinbase || fee_reward then
      let tx_ty := if coinbase then COINBASE_REWARD else FEE_REWARD
      if change then s.tx_records
      else
        addTransactionRecord
          { name := coin.name
            confirmed_at_height := height
            created_at_time := env.timestamp_for_height height
            to_puzzle_hash := coin.puzzle_hash
            amount := coin.amount
            fee_amount := 0
            confirmed := true
            sent := 0
            sent_to := []
            additions := [coin]
            removals := []
            wallet_id := wallet_id
            tx_type := tx_ty } s.tx_records
    else
      let records := all_outgoing.filter (fun r => r.additions.any (fun a => a.name == coin.name))
      if records.isEmpty then
        if change then s.tx_records
        else if 0 < coin.amount then
          addTransactionRecord
            { name := coin.name
              confirmed_at_height := height
              created_at_time := env.timestamp_for_height height
              to_puzzle_hash := coin.puzzle_hash
              amount := coin.amount
              fee_amount := 0
              confirmed := true
              sent := 0
              sent_to := []
              additions := [coin]
              removals := []
              wallet_id := wallet_id
              tx_type := INCOMING_TX } s.tx_records
        else s.tx_records
      else
        confirmRecords height records s.tx_records
  let coin_record : WalletCoinRecord :=
    { coin := coin, confirmed_height := height, spent_height := 0, spent := false
      coinbase := farm_reward, wallet_type := wallet_type, wallet_id := wallet_id }
  ({ s with
      tx_records := txs1
      coin_records := addCoinRecord coin_record s.coin_records
      events := ("coin_added", wallet_id) :: s.events },
   coin_record)

/-! ## Sorting coin states (claim C9)

Python's `coin_states.sort(key=lambda x: x.created_height)` compares the
`created_height` values with `<`; a comparison involving `None` raises
`TypeError`.  The sort is modelled as a stable insertion sort over a partial
comparator.  CPython's timsort and insertion sort agree on the property used
here: every sort of a list of length at least two performs at least one
comparison involving each element, so one absent height poisons the batch. -/

inductive PyError where
  | typeError
deriving DecidableEq, Repr

/-- Partial comparison of sort keys: defined only on present heights. -/
def cmpLe (a b : Option Nat) : Except PyError Bool :=
  match a, b with
  | some x, some y => .ok (decide (x ≤ y))
  | _, _ => .error .typeError

def insertSorted (x : CoinState) : List CoinState → Except PyError (List CoinState)
  | [] => .ok [x]
  | y :: ys =>
    match cmpLe x.created_height y.created_height with
    | .error e => .error e
    | .ok true => .ok (x :: y :: ys)
    | .ok false =>
      match insertSorted x ys with
      | .error e => .error e
      | .ok t => .ok (y :: t)

def sortCoinStates : List CoinState → Except PyError (List CoinState)
  | [] => .ok []
  | x :: xs =>
    match sortCoinStates xs with
    | .error e => .error e
    | .ok t => insertSorted x t

/-! ## new_coin_state (claims C2, C3, C4, C9, C10) -/

/-- Accumulator of the processing loop of new_coin_state: evolving state,
the `added` / `removed` result lists, the per-wallet cache of outgoing
transactions, and the two trade lists handed to the trade manager after the
loop. -/
structure NcsAcc where
  st : WalletState
  added : List WalletCoinRecord
  removed : List CoinState
  outgoing_cache : List (Nat × List TransactionRecord)
  trade_adds : List CoinState
  trade_removed : List CoinState
deriving DecidableEq, Repr

/-- Per-wallet cache of `get_all_transactions_for_wallet(w, OUTGOING_TX)`:
once read, later store updates are not re-read (faithful to the
`all_outgoing_per_wallet` dict). -/
def getCachedOutgoing (wid : Nat) (acc : NcsAcc) :
    List TransactionRecord × List (Nat × List TransactionRecord) :=
  match acc.outgoing_cache.find? (fun p => p.1 == wid) with
  | some p => (p.2, acc.outgoing_cache)
  | none =>
    let v := getAllTransactionsForWalletOfType wid OUTGOING_TX acc.st.tx_records
    (v, (wid, v) :: acc.outgoing_cache)

/-- Scan of the fetched children, exactly the Python loop: every child with
no derivation record of ours overwrites `to_puzzle_hash` and adds its
amount. -/
def outgoingScan (env : WalletEnv) (t : Option Nat) (a : Nat) :
    List Coin → Option Nat × Nat
  | [] => (t, a)
  | c :: rest =>
    match env.derivation_record_for_puzzle_hash c.puzzle_hash with
    | none => outgoingScan env (some c.puzzle_hash) (a + c.amount) rest
    | some _ => outgoingScan env t a rest

/-- The fetched children whose puzzle hash has no derivation record of
ours. -/
def notOursChildren (env : WalletEnv) (l : List Coin) : List Coin :=
  l.filter (fun c => (env.derivation_record_for_puzzle_hash c.puzzle_hash).isNone)

/-- Puzzle hash of the LAST child not belonging to us, with a fallback. -/
def lastNotOursPuzzleHash (env : WalletEnv) (l : List Coin) (fallback : Nat) : Nat :=
  match (notOursChildren env l).getLast? with
  | some c => c.puzzle_hash
  | none => fallback

/-- Puzzle hash of the FIRST child not belonging to us (the claim's
wording), with a fallback. -/
def firstNotOursPuzzleHash (env : WalletEnv) (l : List Coin) (fallback : Nat) : Nat :=
  match (notOursChildren env l).head? with
  | some c => c.puzzle_hash
  | none => fallback

/-- Inner loop confirming every cached unconfirmed transaction whose
removals contain this coin (repeated `set_confirmed` on the same record is
idempotent, so one update per matching record is faithful). -/
def confirmUnconfirmedRemovals (allUnconf : List TransactionRecord)
    (cname sh : Nat) (s : WalletState) : WalletState :=
  allUnconf.foldl
    (fun st u =>
      if u.removals.any (fun rc => rc.name == cname) then
        { st with tx_records := setConfirmedTx u.name sh st.tx_records }
      else st) s

/-- Branch of new_coin_state for a created-and-spent coin state
(`created_height` and `spent_height` both present). -/
def processCreatedSpent (env : WalletEnv) (allUnconf : List TransactionRecord)
    (acc : NcsAcc) (cs : CoinState) (ch sh : Nat)
    (info : Option (Nat × Nat)) : NcsAcc :=
  let record := findCoinRecord acc.st.coin_records cs.coin.name
  let acc :=
    if env.trade_removal cs.coin.name then
      { acc with trade_removed := acc.trade_removed ++ [cs] }
    else acc
  let acc2 :=
    match record with
    | none =>
      match info with
      | some (wid, wt) =>
        let farmer := isFarmerReward env ch cs.coin.parent_coin_info
        let pool := !farmer && isPoolReward env ch cs.coin.parent_coin_info
        let newRec : WalletCoinRecord :=
          { coin := cs.coin, confirmed_height := ch, spent_height := sh, spent := true
            coinbase := farmer || pool, wallet_type := wt, wallet_id := wid }
        let st1 := { acc.st with coin_records := addCoinRecord newRec acc.st.coin_records }
        let parentRec := findCoinRecord st1.coin_records cs.coin.parent_coin_info
        let change := match parentRec with
          | some pr => wt == pr.wallet_type
          | none => false
        let st2 :=
          if change then st1
          else
            { st1 with
                tx_records := addTransactionRecord
                  { name := st1.next_tx_name
                    confirmed_at_height := ch
                    created_at_time := env.timestamp_for_height ch
                    to_puzzle_hash := cs.coin.puzzle_hash
                    amount := cs.coin.amount
                    fee_amount := 0
                    confirmed := true
                    sent := 0
                    sent_to := []
                    additions := [cs.coin]
                    removals := []
                    wallet_id := wid
                    tx_type := INCOMING_TX } st1.tx_records
                next_tx_name := st1.next_tx_name + 1 }
        let children := env.fetch_children cs.coin.name
        let st3 :=
          match children with
          | [] => st2
          | c0 :: _ =>
            let fee := env.reserved_fee sh cs.coin.name
            let scanned := outgoingScan env none 0 children
            let to_ph := scanned.1.getD c0.puzzle_hash
            { st2 with
                tx_records := addTransactionRecord
                  { name := st2.next_tx_name
                    confirmed_at_height := sh
                    created_at_time := env.timestamp_for_height sh
                    to_puzzle_hash := to_ph
                    amount := scanned.2
                    fee_amount := fee
                    confirmed := true
                    sent := 0
                    sent_to := []
                    additions := children
                    removals := [cs.coin]
                    wallet_id := wid
                    tx_type := OUTGOING_TX } st2.tx_records
                next_tx_name := st2.next_tx_name + 1 }
        { acc with st := st3 }
      | none => acc
    | some _ =>
      { acc with st := { acc.st with coin_records := setSpent cs.coin.name sh acc.st.coin_records } }
  let st4 := confirmUnconfirmedRemovals allUnconf cs.coin.name sh acc2.st
  { acc2 with st := st4, removed := acc2.removed ++ [cs] }

/-- Branch of new_coin_state for a created-and-unspent coin state. -/
def processCreatedUnspent (env : WalletEnv) (acc : NcsAcc) (cs : CoinState)
    (ch : Nat) (info : Option (Nat × Nat)) (interested : Option Nat) : NcsAcc :=
  let farmer := isFarmerReward env ch cs.coin.parent_coin_info
  let pool := !farmer && isPoolReward env ch cs.coin.parent_coin_info
  let acc :=
    if env.trade_addition cs.coin.name then
      { acc with trade_adds := acc.trade_adds ++ [cs] }
    else acc
  let widwt : Option (Nat × Nat) :=
    match info with
    | some (wid, wt) => some (wid, wt)
    | none =>
      match interested with
      | some wid => some (wid, env.wallet_type_of wid)
      | none => none
  match widwt with
  | none => acc
  | some (wid, wt) =>
    let cache := getCachedOutgoing wid acc
    let res := coinAdded env acc.st cs.coin pool farmer wid wt ch cache.1
    let st2 :=
      match env.index_for_puzzle_hash cs.coin.puzzle_hash with
      | some di => { res.1 with used_up_to := setUsedUpTo di res.1.used_up_to }
      | none => res.1
    { acc with st := st2, added := acc.added ++ [res.2], outgoing_cache := cache.2 }

/-- Processing of one coin state: the three disjoint height cases of the
loop body (the reorged-out case, both heights absent, is the source's
TODO `pass` and leaves everything unchanged). -/
def processOneCoinState (env : WalletEnv) (allUnconf : List TransactionRecord)
    (acc : NcsAcc) (cs : CoinState) : NcsAcc :=
  let info := env.wallet_info_for_puzzle_hash cs.coin.puzzle_hash
  let interested := env.interested_puzzle_hash_wallet_id cs.coin.puzzle_hash
  match cs.created_height, cs.spent_height with
  | none, _ => acc
  | some ch, none => processCreatedUnspent env acc cs ch info interested
  | some ch, some sh => processCreatedSpent env allUnconf acc cs ch sh info

/-- reorg_rollback: roll both ledgers back and re-queue reorged outgoing and
trade transactions.  The pool-wallet rewind/delete path mutates only the
wallet registry, which is outside the modelled state. -/
def reorgRollback (s : WalletState) (height : Nat) : WalletState :=
  let coins := coinRollbackToBlock height s.coin_records
  let reorged := getTransactionAbove height s.tx_records
  let txs1 := txRollbackToBlock height s.tx_records
  let txs2 := reorged.foldl
    (fun acc r =>
      if r.tx_type == OUTGOING_TX || r.tx_type == OUTGOING_TRADE || r.tx_type == INCOMING_TRADE then
        txReorged r acc
      else acc) txs1
  { s with coin_records := coins, tx_records := txs2 }

/-- Rollback guard of new_coin_state: both heights provided and
`fork_height != current_height - 1` (over Int, as in Python, where
`current_height - 1` may be `-1`). -/
def rollbackCondition (fork current : Option Nat) : Bool :=
  match fork, current with
  | some f, some c => decide ((f : Int) ≠ (c : Int) - 1)
  | _, _ => false

/-- new_coin_state: sort the batch (a `TypeError` aborts it), snapshot the
unconfirmed transactions, optionally reorg-rollback, then fold the
processing loop.  The trade-manager notifications issued after the loop are
external effects. -/
def newCoinState (env : WalletEnv) (s : WalletState) (coin_states : List CoinState)
    (fork_height current_height : Option Nat) :
    Except PyError (WalletState × List WalletCoinRecord × List CoinState) :=
  match sortCoinStates coin_states with
  | .error e => .error e
  | .ok sorted =>
    let allUnconf := getAllUnconfirmed s.tx_records
    let s1 := if rollbackCondition fork_height current_height then
        reorgRollback s (fork_height.getD 0)
      else s
    let acc := sorted.foldl (processOneCoinState env allUnconf)
      { st := s1, added := [], removed := [], outgoing_cache := []
        trade_adds := [], trade_removed := [] }
    .ok (acc.st, acc.added, acc.removed)

/-- One batch applied through new_coin_state; a failed batch (sort
`TypeError`) leaves the state unchanged. -/
def applyBatch (env : WalletEnv) (s : WalletState)
    (b : List CoinState × Option Nat × Option Nat) : WalletState :=
  match newCoinState env s b.1 b.2.1 b.2.2 with
  | .ok r => r.1
  | .error _ => s

/-- A sequence of coin-state batches applied through new_coin_state. -/
def applyBatches (env : WalletEnv)
    (batches : List (List CoinState × Option Nat × Option Nat))
    (s : WalletState) : WalletState :=
  batches.foldl (applyBatch env) s

/-! ## Derivation expansion: create_more_puzzle_hashes (claim C8) -/

/-- One registered wallet as seen by create_more_puzzle_hashes: its id, its
`type()`, and the rate-limited wallet internals consulted by the RL branch
(`rl_index = none` models `get_derivation_index` returning `-1`). -/
structure WalletEntry where
  id : Nat
  wtype : Nat
  rl_initialized : Bool
  rl_index : Option Nat
  rl_puzzle_hash : Nat
  rl_pubkey : Nat
deriving DecidableEq, Repr

/-- The puzzle store: derivation records plus the used-up-to pointer
(`none` = no index marked used yet). -/
structure PuzzleStore where
  records : List DerivationRecord
  used_up_to : Option Nat
deriving DecidableEq, Repr

/-- Key material: `puzzle_hash_for w i` is the tree hash of wallet `w`'s
puzzle for the pubkey at index `i` (`none` models `puzzle_for_pk` returning
`None`); `pubkey_for` is the deterministic wallet key at an index. -/
structure KeyEnv where
  puzzle_hash_for : Nat → Nat → Option Nat
  pubkey_for : Nat → Nat

/-- get_unused_derivation_path: lowest derivation index not yet marked
used. -/
def psGetUnused (ps : PuzzleStore) : Option Nat :=
  ((ps.records.filter (fun r =>
      match ps.used_up_to with
      | none => true
      | some u => decide (u < r.index))).map (fun r => r.index)).min?

/-- get_last_derivation_path: highest derivation index present. -/
def psGetLast (ps : PuzzleStore) : Option Nat :=
  (ps.records.map (fun r => r.index)).max?

/-- get_last_derivation_path_for_wallet. -/
def psGetLastForWallet (wid : Nat) (ps : PuzzleStore) : Option Nat :=
  ((ps.records.filter (fun r => r.wallet_id == wid)).map (fun r => r.index)).max?

/-- add_derivation_paths. -/
def psAdd (paths : List DerivationRecord) (ps : PuzzleStore) : PuzzleStore :=
  { ps with records := ps.records ++ paths }

/-- set_used_up_to on the store (monotone). -/
def psSetUsedUpTo (i : Nat) (ps : PuzzleStore) : PuzzleStore :=
  { ps with used_up_to := setUsedUpTo i ps.used_up_to }

/-- The `unused` value computed at the top of create_more_puzzle_hashes:
first unused path, else last generated path, else 0 on an empty store. -/
def unusedDerivation (ps : PuzzleStore) : Nat :=
  ((psGetUnused ps).orElse (fun _ => psGetLast ps)).getD 0

/-- The per-wallet index loop of create_more_puzzle_hashes: pooling wallets
skip every index, a rate-limited wallet emits at most one record at its RL
index and breaks, a failed puzzle build breaks, otherwise one record per
index. -/
def genForWallet (kenv : KeyEnv) (w : WalletEntry) : List Nat → List DerivationRecord
  | [] => []
  | i :: rest =>
    if w.wtype == POOLING_WALLET then genForWallet kenv w rest
    else if w.wtype == RATE_LIMITED then
      if !w.rl_initialized then []
      else
        match w.rl_index with
        | none => []
        | some ri => [{ index := ri, puzzle_hash := w.rl_puzzle_hash, pubkey := w.rl_pubkey
                        wallet_type := w.wtype, wallet_id := w.id }]
    else
      match kenv.puzzle_hash_for w.id i with
      | none => []
      | some ph =>
        { index := i, puzzle_hash := ph, pubkey := kenv.pubkey_for i
          wallet_type := w.wtype, wallet_id := w.id } :: genForWallet kenv w rest

/-- Per-wallet step of create_more_puzzle_hashes: compute the start index,
generate, store the paths, record the subscription batch. -/
def createMoreStep (kenv : KeyEnv) (unused to_generate : Nat) (from_zero : Bool)
    (acc : PuzzleStore × List (Nat × List DerivationRecord) × List (List Nat))
    (w : WalletEntry) :
    PuzzleStore × List (Nat × List DerivationRecord) × List (List Nat) :=
  let last := psGetLastForWallet w.id acc.1
  let start_index := if from_zero then 0 else
    match last with
    | some l => l + 1
    | none => 0
  let idxs := List.range' start_index ((unused + to_generate) - start_index)
  let paths := genForWallet kenv w idxs
  (psAdd paths acc.1,
   acc.2.1 ++ [(w.id, paths)],
   acc.2.2 ++ [paths.map (fun r => r.puzzle_hash)])

/-- create_more_puzzle_hashes: generates derivations for every registered
wallet.  Returns the updated puzzle store, the generated records per wallet
(in registry order), and the puzzle-hash batches published to
`subscribe_to_new_puzzle_hash`. -/
def createMorePuzzleHashes (kenv : KeyEnv) (wallets : List WalletEntry)
    (ps : PuzzleStore) (new_wallet : Bool) (init_num init_num_new : Nat)
    (from_zero : Bool) :
    PuzzleStore × List (Nat × List DerivationRecord) × List (List Nat) :=
  let unused := unusedDerivation ps
  let to_generate := if new_wallet then init_num_new else init_num
  let folded := wallets.foldl (createMoreStep kenv unused to_generate from_zero) (ps, [], [])
  let ps2 := if 0 < unused then psSetUsedUpTo (unused - 1) folded.1 else folded.1
  (ps2, folded.2.1, folded.2.2)

/-- The start index of the expansion range for a wallet, as claim C8 words
it: `last_generated_for(w) + 1`, or `0` when nothing was generated yet or
`from_zero` is set. -/
def startIndexFor (w : WalletEntry) (from_zero : Bool) (ps : PuzzleStore) : Nat :=
  if from_zero then 0
  else
    match psGetLastForWallet w.id ps with
    | some l => l + 1
    | none => 0

/-! ## Singleton History Engine (claims C6, C7)

Modelled from the spec: the module `chia/full_node/singleton_store.py` is
not part of the provided sources (only its tests are), so `SingletonStore`
is reconstructed from spec section 4.4 and calibrated against
`tests/core/full_node/stores/test_singleton_store.py`: `add_state` with the
`NotChildOfLatest` / `AlreadyExists` checks and the shelving of the previous
latest state, `set_peak_height` with pruning of stale recent entries into
the last non-recent state, and `rollback` re-anchoring the latest state via
the external coin store and rebuilding both windows, with the peak never
raised above the rollback target. -/

namespace Singleton

def MAX_REORG_SIZE : Nat := 100

/-- Full-node coin record as the singleton store consumes it: its name,
its parent's name and its confirmed height. -/
structure CoinRec where
  name : Nat
  parent : Nat
  height : Nat
deriving DecidableEq, Repr

inductive SErr where
  | notChildOfLatest
  | alreadyExists
deriving DecidableEq, Repr

/-- Per-launcher state: latest record, last non-recent `(height, name)`
snapshot, and the recent-history window of `(height, name)` entries. -/
structure SingletonInfo where
  latest_state : CoinRec
  last_non_recent_state : Option (Nat × Nat)
  recent_history : List (Nat × Nat)
deriving DecidableEq, Repr

/-- Store state: the current peak height and the tracked singletons keyed
by launcher id. -/
structure StoreState where
  peak_height : Nat
  singletons : List (Nat × SingletonInfo)
deriving DecidableEq, Repr

/-- is_recent: `h ≥ peak - R`, stated without truncated subtraction. -/
def isRecent (peak h : Nat) : Bool :=
  decide (peak ≤ h + MAX_REORG_SIZE)

def getInfo (st : StoreState) (launcher : Nat) : Option SingletonInfo :=
  (st.singletons.find? (fun p => p.1 == launcher)).map (fun p => p.2)

def setInfo (st : StoreState) (launcher : Nat) (info : SingletonInfo) : StoreState :=
  { st with singletons := (launcher, info) :: st.singletons.filter (fun p => p.1 != launcher) }

def removeSingleton (st : StoreState) (launcher : Nat) : StoreState :=
  { st with singletons := st.singletons.filter (fun p => p.1 != launcher) }

/-- Is a state with this coin name already present for the singleton? -/
def namePresent (info : SingletonInfo) (n : Nat) : Bool :=
  info.latest_state.name == n
    || info.recent_history.any (fun e => e.2 == n)
    || (match info.last_non_recent_state with
        | some e => e.2 == n
        | none => false)

/-- add_state: bootstrap on an unknown launcher, otherwise check
`NotChildOfLatest` then `AlreadyExists`, then shelve the previous latest
state into the appropriate window.  A failure returns the state unchanged
together with the error. -/
def addState (st : StoreState) (launcher : Nat) (new_cr : CoinRec) :
    StoreState × Option SErr :=
  match getInfo st launcher with
  | none =>
    (setInfo st launcher { latest_state := new_cr, last_non_recent_state := none, recent_history := [] },
     none)
  | some info =>
    if new_cr.parent != info.latest_state.name then (st, some .notChildOfLatest)
    else if namePresent info new_cr.name then (st, some .alreadyExists)
    else
      let prev := info.latest_state
      let info2 :=
        if isRecent st.peak_height prev.height then
          { latest_state := new_cr
            last_non_recent_state := info.last_non_recent_state
            recent_history := info.recent_history ++ [(prev.height, prev.name)] }
        else
          { latest_state := new_cr
            last_non_recent_state := some (prev.height, prev.name)
            recent_history := info.recent_history }
      (setInfo st launcher info2, none)

/-- Prune one singleton at a new peak: entries that fell out of the recent
window move out, only the youngest of them surviving as the last non-recent
state. -/
def pruneInfo (new_peak : Nat) (info : SingletonInfo) : SingletonInfo :=
  let stale := info.recent_history.filter (fun e => !isRecent new_peak e.1)
  let keep := info.recent_history.filter (fun e => isRecent new_peak e.1)
  { info with
      last_non_recent_state :=
        match stale.getLast? with
        | some e => some e
        | none => info.last_non_recent_state
      recent_history := keep }

/-- set_peak_height (the spent-coin-names argument carries no specified
behaviour in the spec and is omitted). -/
def setPeakHeight (st : StoreState) (new_peak : Nat) (do_prune : Bool) : StoreState :=
  if do_prune then
    { peak_height := new_peak
      singletons := st.singletons.map (fun p => (p.1, pruneInfo new_peak p.2)) }
  else
    { st with peak_height := new_peak }

/-- Ancestor chain of a coin record through the external coin store,
fuel-bounded (the fuel `cr.height` suffices whenever the store is
well-formed, heights strictly decreasing along parent links). -/
def ancestors (store : Nat → Option CoinRec) : Nat → CoinRec → List CoinRec
  | 0, cr => [cr]
  | fuel + 1, cr =>
    cr :: (match store cr.parent with
           | some p => ancestors store fuel p
           | none => [])

/-- Rollback of one singleton: re-anchor the latest state to the highest
surviving ancestor, rebuild the recent window from the ancestors inside the
recency horizon and the last non-recent state from the youngest one below
it; no surviving ancestor deletes the singleton. -/
def rollbackInfo (store : Nat → Option CoinRec) (target new_peak : Nat)
    (info : SingletonInfo) : Option SingletonInfo :=
  let chain := ancestors store info.latest_state.height info.latest_state
  match chain.find? (fun cr => decide (cr.height ≤ target)) with
  | none => none
  | some newLatest =>
    let below := (ancestors store newLatest.height newLatest).tail
    some
      { latest_state := newLatest
        last_non_recent_state :=
          (below.find? (fun cr => !isRecent new_peak cr.height)).map
            (fun cr => (cr.height, cr.name))
        recent_history :=
          ((below.filter (fun cr => isRecent new_peak cr.height)).map
            (fun cr => (cr.height, cr.name))).reverse }

/-- rollback(target_height, coin_store). -/
def rollback (st : StoreState) (target : Nat) (store : Nat → Option CoinRec) :
    StoreState :=
  let new_peak := min st.peak_height target
  { peak_height := new_peak
    singletons := st.singletons.filterMap
      (fun p => (rollbackInfo store target new_peak p.2).map (fun i => (p.1, i))) }

/-- The recency invariant of claim C6 for one singleton, at a peak. -/
def invInfo (peak : Nat) (info : SingletonInfo) : Bool :=
  info.recent_history.all (fun e => isRecent peak e.1)
    && (match info.last_non_recent_state with
        | some e => !isRecent peak e.1
        | none => true)

/-- The recency invariant of claim C6 for the whole store. -/
def invStore (st : StoreState) : Bool :=
  st.singletons.all (fun p => invInfo st.peak_height p.2)

end Singleton

/-- Ledger invariant for the C4 roundtrip: the ledger `l` agrees with the
pre-sequence ledger `L0` after a rollback to height `h` (pointwise by coin
name), and its coin names are key-unique (the store's primary key). -/
def LedgerInv (h : Nat) (L0 l : List WalletCoinRecord) : Prop :=
  (∀ n, findCoinRecord (coinRollbackToBlock h l) n = findCoinRecord L0 n) ∧
  (l.map (fun x => x.coin.name)).Nodup

/-- Two transaction records agree on every field except the confirmation
status (`set_confirmed` changes only `confirmed` and
`confirmed_at_height`). -/
def sameCore (u t : TransactionRecord) : Prop :=
  u.name = t.name ∧ u.tx_type = t.tx_type ∧ u.amount = t.amount ∧
  u.fee_amount = t.fee_amount ∧ u.to_puzzle_hash = t.to_puzzle_hash ∧
  u.additions = t.additions ∧ u.removals = t.removals ∧ u.wallet_id = t.wallet_id

/-! ## Concrete fixtures for witnesses and counterexamples -/

/-- An environment in which the wallet knows nothing: every lookup misses,
every fetch is empty. -/
def emptyEnv : WalletEnv where
  wallet_info_for_puzzle_hash := fun _ => none
  interested_puzzle_hash_wallet_id := fun _ => none
  index_for_puzzle_hash := fun _ => none
  derivation_record_for_puzzle_hash := fun _ => none
  wallet_type_of := fun _ => 0
  pool_parent_id := fun _ => 0
  farmer_parent_id := fun _ => 0
  fetch_children := fun _ => []
  reserved_fee := fun _ _ => 0
  timestamp_for_height := fun _ => 0
  trade_removal := fun _ => false
  trade_addition := fun _ => false

/-- An environment owning puzzle hash 1 for wallet 1 (standard type);
reward parents are fixed at an id no coin uses. -/
def envOwn1 : WalletEnv :=
  { emptyEnv with
      wallet_info_for_puzzle_hash := fun ph => if ph == 1 then some (1, 0) else none
      pool_parent_id := fun _ => 777777
      farmer_parent_id := fun _ => 888888 }

/-- The empty wallet state. -/
def emptyState : WalletState :=
  { coin_records := [], tx_records := [], used_up_to := none, next_tx_name := 0, events := [] }

/-! ## Helper lemmas: singleton store -/

theorem singleton_getInfo_mem {st : Singleton.StoreState} {l : Nat}
    {i : Singleton.SingletonInfo} (h : Singleton.getInfo st l = some i) :
    ∃ p ∈ st.singletons, p.2 = i := by
  unfold Singleton.getInfo at h
  cases hf : st.singletons.find? (fun p => p.1 == l) with
  | none => simp [hf] at h
  | some p =>
    simp [hf] at h
    exact ⟨p, List.mem_of_find?_eq_some hf, h⟩

theorem singleton_invStore_iff (st : Singleton.StoreState) :
    Singleton.invStore st = true ↔
      ∀ p ∈ st.singletons, Singleton.invInfo st.peak_height p.2 = true := by
  simp [Singleton.invStore, List.all_eq_true]

theorem singleton_invInfo_iff (peak : Nat) (info : Singleton.SingletonInfo) :
    Singleton.invInfo peak info = true ↔
      (∀ e ∈ info.recent_history, Singleton.isRecent peak e.1 = true) ∧
      (∀ e, info.last_non_recent_state = some e → Singleton.isRecent peak e.1 = false) := by
  cases h : info.last_non_recent_state <;>
    simp [Singleton.invInfo, List.all_eq_true, h]

theorem singleton_isRecent_mono {peak np h : Nat} (hle : peak ≤ np)
    (hr : Singleton.isRecent peak h = false) : Singleton.isRecent np h = false := by
  simp only [Singleton.isRecent, decide_eq_false_iff_not] at hr ⊢
  omega

theorem singleton_setInfo_inv {st : Singleton.StoreState} {l : Nat}
    {i : Singleton.SingletonInfo} (h1 : Singleton.invStore st = true)
    (h2 : Singleton.invInfo st.peak_height i = true) :
    Singleton.invStore (Singleton.setInfo st l i) = true := by
  rw [singleton_invStore_iff] at h1 ⊢
  intro p hp
  simp only [Singleton.setInfo] at hp ⊢
  rcases List.mem_cons.1 hp with he | hf
  · rw [he]; exact h2
  · exact h1 p (List.mem_of_mem_filter hf)

/-- Claim C6: after add_state, set_peak_height with pruning (to a peak not
below the current one) and rollback, every recent-history entry of every
tracked singleton is inside the recency window and the last non-recent
state, when present, is below it. -/
theorem claim_C6 (st : Singleton.StoreState) (launcher : Nat)
    (new_cr : Singleton.CoinRec) (np target : Nat)
    (store : Nat → Option Singleton.CoinRec)
    (hInv : Singleton.invStore st = true) (hpeak : st.peak_height ≤ np) :
    Singleton.invStore (Singleton.addState st launcher new_cr).1 = true ∧
    Singleton.invStore (Singleton.setPeakHeight st np true) = true ∧
    Singleton.invStore (Singleton.rollback st target store) = true := by
  refine ⟨?_, ?_, ?_⟩
  · -- add_state
    cases hg : Singleton.getInfo st launcher with
    | none =>
      simp only [Singleton.addState, hg]
      exact singleton_setInfo_inv hInv (by simp [Singleton.invInfo])
    | some info =>
      obtain ⟨q, hq, hq2⟩ := singleton_getInfo_mem hg
      have hinfo : Singleton.invInfo st.peak_height info = true := by
        rw [← hq2]; exact (singleton_invStore_iff st).1 hInv q hq
      rw [singleton_invInfo_iff] at hinfo
      obtain ⟨hrec, hlnrs⟩ := hinfo
      simp only [Singleton.addState, hg]
      by_cases hb : (new_cr.parent != info.latest_state.name) = true
      · simp only [hb, if_true]; exact hInv
      · rw [Bool.not_eq_true] at hb
        simp only [hb, Bool.false_eq_true, if_false]
        by_cases hn : Singleton.namePresent info new_cr.name = true
        · simp only [hn, if_true]; exact hInv
        · rw [Bool.not_eq_true] at hn
          simp only [hn, Bool.false_eq_true, if_false]
          by_cases hr : Singleton.isRecent st.peak_height info.latest_state.height = true
          · simp only [hr, if_true]
            refine singleton_setInfo_inv hInv ?_
            rw [singleton_invInfo_iff]
            refine ⟨?_, hlnrs⟩
            intro e he
            rcases List.mem_append.1 he with h1 | h1
            · exact hrec e h1
            · rcases List.mem_singleton.1 h1 with rfl; exact hr
          · rw [Bool.not_eq_true] at hr
            simp only [hr, Bool.false_eq_true, if_false]
            refine singleton_setInfo_inv hInv ?_
            rw [singleton_invInfo_iff]
            refine ⟨hrec, ?_⟩
            intro e he
            rcases Option.some.inj he with rfl
            exact hr
  · -- set_peak_height with pruning
    rw [singleton_invStore_iff]
    intro p hp
    simp only [Singleton.setPeakHeight, if_true] at hp
    simp only [List.mem_map] at hp
    obtain ⟨q, hq, rfl⟩ := hp
    have hinfo : Singleton.invInfo st.peak_height q.2 = true :=
      (singleton_invStore_iff st).1 hInv q hq
    rw [singleton_invInfo_iff] at hinfo
    obtain ⟨hrec, hlnrs⟩ := hinfo
    show Singleton.invInfo (Singleton.setPeakHeight st np true).peak_height
      (Singleton.pruneInfo np q.2) = true
    have hpk : (Singleton.setPeakHeight st np true).peak_height = np := by
      simp [Singleton.setPeakHeight]
    rw [hpk, singleton_invInfo_iff]
    constructor
    · intro e he
      simp only [Singleton.pruneInfo] at he
      have := List.of_mem_filter he
      simpa using this
    · intro e he
      simp only [Singleton.pruneInfo] at he
      cases hl : (q.2.recent_history.filter
          (fun e => !Singleton.isRecent np e.1)).getLast? with
      | some x =>
        rw [hl] at he
        rcases Option.some.inj he with rfl
        have := List.of_mem_filter (List.mem_of_mem_getLast? hl)
        simpa using this
      | none =>
        rw [hl] at he
        exact singleton_isRecent_mono hpeak (hlnrs e he)
  · -- rollback
    rw [singleton_invStore_iff]
    intro p hp
    simp only [Singleton.rollback, List.mem_filterMap] at hp
    obtain ⟨q, _, hq2⟩ := hp
    cases hri : Singleton.rollbackInfo store target (min st.peak_height target) q.2 with
    | none => rw [hri] at hq2; simp at hq2
    | some i =>
      rw [hri] at hq2
      simp only [Option.map_some'] at hq2
      rcases Option.some.inj hq2 with rfl
      show Singleton.invInfo (Singleton.rollback st target store).peak_height i = true
      have hpk : (Singleton.rollback st target store).peak_height = min st.peak_height target := by
        simp [Singleton.rollback]
      rw [hpk, singleton_invInfo_iff]
      simp only [Singleton.rollbackInfo] at hri
      cases hfind : (Singleton.ancestors store q.2.latest_state.height q.2.latest_state).find?
          (fun cr => decide (cr.height ≤ target)) with
      | none => rw [hfind] at hri; simp at hri
      | some newLatest =>
        rw [hfind] at hri
        rcases Option.some.inj hri with rfl
        constructor
        · intro e he
          simp only [List.mem_reverse, List.mem_map] at he
          obtain ⟨cr, hcr, rfl⟩ := he
          have := List.of_mem_filter hcr
          simpa using this
        · intro e he
          simp only [Option.map_eq_some'] at he
          obtain ⟨cr, hcr, rfl⟩ := he
          have := List.find?_some hcr
          simpa using this

/-- Witness for claim C6 at a concrete store (peak 50, one singleton with a
recent entry), peak advance to 60 and rollback to 20 over an empty external
coin store. -/
theorem claim_C6_witness :
    Singleton.invStore
      (Singleton.addState ⟨50, [(1, ⟨⟨10, 5, 40⟩, none, [(30, 7)]⟩)]⟩ 1 ⟨11, 10, 45⟩).1 = true ∧
    Singleton.invStore
      (Singleton.setPeakHeight ⟨50, [(1, ⟨⟨10, 5, 40⟩, none, [(30, 7)]⟩)]⟩ 60 true) = true ∧
    Singleton.invStore
      (Singleton.rollback ⟨50, [(1, ⟨⟨10, 5, 40⟩, none, [(30, 7)]⟩)]⟩ 20 (fun _ => none)) = true :=
  claim_C6 ⟨50, [(1, ⟨⟨10, 5, 40⟩, none, [(30, 7)]⟩)]⟩ 1 ⟨11, 10, 45⟩ 60 20
    (fun _ => none) (by decide) (by decide)

/-- Claim C7: add_state bootstraps a fresh SingletonInfo with empty windows
on an unknown launcher, fails with NotChildOfLatest on a parent mismatch and
with AlreadyExists on a duplicate coin name, leaving the store unchanged on
failure. -/
theorem claim_C7 (st : Singleton.StoreState) (launcher : Nat)
    (new_cr : Singleton.CoinRec) :
    (Singleton.getInfo st launcher = none →
      Singleton.addState st launcher new_cr =
        (Singleton.setInfo st launcher
          { latest_state := new_cr, last_non_recent_state := none, recent_history := [] },
         none)) ∧
    (∀ info, Singleton.getInfo st launcher = some info →
      new_cr.parent ≠ info.latest_state.name →
      Singleton.addState st launcher new_cr = (st, some Singleton.SErr.notChildOfLatest)) ∧
    (∀ info, Singleton.getInfo st launcher = some info →
      new_cr.parent = info.latest_state.name →
      Singleton.namePresent info new_cr.name = true →
      Singleton.addState st launcher new_cr = (st, some Singleton.SErr.alreadyExists)) := by
  refine ⟨?_, ?_, ?_⟩
  · intro h
    simp [Singleton.addState, h]
  · intro info h hne
    simp [Singleton.addState, h, hne]
  · intro info h he hn
    simp [Singleton.addState, h, he, hn]

/-- Witness for claim C7: a bootstrap, a parent mismatch and a duplicate
name, each at concrete stores. -/
theorem claim_C7_witness :
    Singleton.addState ⟨0, []⟩ 5 ⟨1, 2, 3⟩ =
      (Singleton.setInfo ⟨0, []⟩ 5 ⟨⟨1, 2, 3⟩, none, []⟩, none) ∧
    Singleton.addState ⟨50, [(1, ⟨⟨10, 5, 40⟩, none, [(30, 7)]⟩)]⟩ 1 ⟨12, 99, 45⟩ =
      (⟨50, [(1, ⟨⟨10, 5, 40⟩, none, [(30, 7)]⟩)]⟩, some Singleton.SErr.notChildOfLatest) ∧
    Singleton.addState ⟨50, [(1, ⟨⟨10, 5, 40⟩, none, [(30, 7)]⟩)]⟩ 1 ⟨7, 10, 45⟩ =
      (⟨50, [(1, ⟨⟨10, 5, 40⟩, none, [(30, 7)]⟩)]⟩, some Singleton.SErr.alreadyExists) :=
  ⟨(claim_C7 ⟨0, []⟩ 5 ⟨1, 2, 3⟩).1 (by decide),
   (claim_C7 ⟨50, [(1, ⟨⟨10, 5, 40⟩, none, [(30, 7)]⟩)]⟩ 1 ⟨12, 99, 45⟩).2.1
     ⟨⟨10, 5, 40⟩, none, [(30, 7)]⟩ (by decide) (by decide),
   (claim_C7 ⟨50, [(1, ⟨⟨10, 5, 40⟩, none, [(30, 7)]⟩)]⟩ 1 ⟨7, 10, 45⟩).2.2
     ⟨⟨10, 5, 40⟩, none, [(30, 7)]⟩ (by decide) (by decide) (by decide)⟩

/-! ## Helper lemmas: balances (claim C1) -/

theorem foldl_add_amount (l : List Coin) (n : Nat) :
    l.foldl (fun a c => a + c.amount) n = n + (l.map (fun c => c.amount)).sum := by
  induction l generalizing n with
  | nil => simp
  | cons c cs ih => simp [ih, Nat.add_assoc]

theorem foldl_add_amount_filter (p : Coin → Bool) (l : List Coin) (n : Nat) :
    l.foldl (fun a c => if p c then a + c.amount else a) n
      = n + ((l.filter p).map (fun c => c.amount)).sum := by
  induction l generalizing n with
  | nil => simp
  | cons c cs ih =>
    by_cases h : p c <;> simp [List.filter_cons, h, ih, Nat.add_assoc]

theorem removalAdditionLoop_eq (env : WalletEnv) (wid : Nat)
    (l : List TransactionRecord) :
    removalAdditionLoop env wid l
      = ((l.map removalSum).sum, (l.map (additionOwnSum env wid)).sum) := by
  induction l with
  | nil => simp [removalAdditionLoop]
  | cons t rest ih =>
    simp [removalAdditionLoop, ih, foldl_add_amount, foldl_add_amount_filter,
      removalSum, additionOwnSum, Nat.add_comm]

/-- Claim C1 (amended): get_unconfirmed_balance returns the confirmed
balance, minus the removal amounts of all unconfirmed transactions of the
wallet (never filtered by ownership), PLUS the addition amounts of those
transactions restricted to additions whose puzzle hash belongs to the
wallet; the claim's second subtraction is in fact an addition in the
source. -/
theorem claim_C1 (env : WalletEnv) (s : WalletState) (wid : Nat) :
    getUnconfirmedBalance env s wid
      = (getConfirmedBalanceForWallet s wid : Int)
        - (((getUnconfirmedForWallet wid s.tx_records).map removalSum).sum : Nat)
        + (((getUnconfirmedForWallet wid s.tx_records).map (additionOwnSum env wid)).sum : Nat) := by
  simp [getUnconfirmedBalance, removalAdditionLoop_eq]

/-- Counterexample to claim C1 as stated: one unspent 100-mojo coin of
wallet 1 and one unconfirmed transaction adding a 10-mojo coin that belongs
to the wallet.  The source returns 110; the claimed formula (subtracting
the owned additions) gives 90. -/
theorem claim_C1_counterexample :
    getUnconfirmedBalance envOwn1
      { coin_records := [{ coin := ⟨0, 1, 100⟩, confirmed_height := 5, spent_height := 0
                           spent := false, coinbase := false, wallet_type := 0, wallet_id := 1 }]
        tx_records := [{ name := 7, confirmed_at_height := 0, created_at_time := 0
                         to_puzzle_hash := 9, amount := 10, fee_amount := 0, confirmed := false
                         sent := 0, sent_to := [], additions := [⟨3, 1, 10⟩], removals := []
                         wallet_id := 1, tx_type := OUTGOING_TX }]
        used_up_to := none, next_tx_name := 0, events := [] } 1
      ≠ claimC1Formula envOwn1
        { coin_records := [{ coin := ⟨0, 1, 100⟩, confirmed_height := 5, spent_height := 0
                             spent := false, coinbase := false, wallet_type := 0, wallet_id := 1 }]
          tx_records := [{ name := 7, confirmed_at_height := 0, created_at_time := 0
                           to_puzzle_hash := 9, amount := 10, fee_amount := 0, confirmed := false
                           sent := 0, sent_to := [], additions := [⟨3, 1, 10⟩], removals := []
                           wallet_id := 1, tx_type := OUTGOING_TX }]
          used_up_to := none, next_tx_name := 0, events := [] } 1 := by
  decide

/-! ## Helper lemmas: derivation expansion (claim C8) -/

theorem genForWallet_index (kenv : KeyEnv) (w : WalletEntry) (idxs : List Nat)
    (hw1 : (w.wtype == POOLING_WALLET) = false)
    (hw2 : (w.wtype == RATE_LIMITED) = false)
    (hp : ∀ i ∈ idxs, (kenv.puzzle_hash_for w.id i).isSome = true) :
    (genForWallet kenv w idxs).map (fun r => r.index) = idxs := by
  induction idxs with
  | nil => simp [genForWallet]
  | cons i rest ih =>
    have hph := hp i (by simp)
    cases hcase : kenv.puzzle_hash_for w.id i with
    | none => rw [hcase] at hph; simp at hph
    | some ph =>
      simp only [genForWallet, hw1, hw2, Bool.false_eq_true, if_false, hcase]
      simp [ih (fun j hj => hp j (by simp [hj]))]

theorem genForWallet_wallet_id (kenv : KeyEnv) (w : WalletEntry) (idxs : List Nat) :
    ∀ r ∈ genForWallet kenv w idxs, r.wallet_id = w.id := by
  induction idxs with
  | nil => simp [genForWallet]
  | cons i rest ih =>
    intro r hr
    simp only [genForWallet] at hr
    split at hr
    · exact ih r hr
    · split at hr
      · split at hr
        · simp at hr
        · split at hr
          · simp at hr
          · rw [List.mem_singleton] at hr; rw [hr]
      · split at hr
        · simp at hr
        · rcases List.mem_cons.1 hr with h1 | h1
          · rw [h1]
          · exact ih r h1

theorem psGetLastForWallet_add_other (wid : Nat) (paths : List DerivationRecord)
    (ps : PuzzleStore) (h : ∀ r ∈ paths, r.wallet_id ≠ wid) :
    psGetLastForWallet wid (psAdd paths ps) = psGetLastForWallet wid ps := by
  unfold psGetLastForWallet psAdd
  simp only [List.filter_append]
  have hnil : paths.filter (fun r => r.wallet_id == wid) = [] := by
    rw [List.filter_eq_nil_iff]
    intro r hr
    simpa using h r hr
  simp [hnil]

theorem createMoreFold_used (kenv : KeyEnv) (u tg : Nat) (fz : Bool)
    (ws : List WalletEntry)
    (acc : PuzzleStore × List (Nat × List DerivationRecord) × List (List Nat)) :
    ((ws.foldl (createMoreStep kenv u tg fz) acc).1).used_up_to = acc.1.used_up_to := by
  induction ws generalizing acc with
  | nil => rfl
  | cons x ws ih => rw [List.foldl_cons, ih]; rfl

theorem createMoreFold_gens_ids (kenv : KeyEnv) (u tg : Nat) (fz : Bool)
    (ws : List WalletEntry)
    (acc : PuzzleStore × List (Nat × List DerivationRecord) × List (List Nat)) :
    ∀ p ∈ (ws.foldl (createMoreStep kenv u tg fz) acc).2.1,
      p ∈ acc.2.1 ∨ p.1 ∈ ws.map (fun x => x.id) := by
  induction ws generalizing acc with
  | nil => intro p hp; exact Or.inl hp
  | cons x ws ih =>
    intro p hp
    rw [List.foldl_cons] at hp
    rcases ih (createMoreStep kenv u tg fz acc x) p hp with h | h
    · simp only [createMoreStep] at h
      rcases List.mem_append.1 h with h1 | h1
      · exact Or.inl h1
      · rw [List.mem_singleton] at h1
        refine Or.inr ?_
        rw [h1]
        simp
    · refine Or.inr ?_
      simp only [List.map_cons, List.mem_cons]
      exact Or.inr h


theorem createMoreFold_other (kenv : KeyEnv) (u tg : Nat) (fz : Bool) (w : WalletEntry)
    (ws : List WalletEntry) :
    ∀ (acc : PuzzleStore × List (Nat × List DerivationRecord) × List (List Nat)),
      (∀ x ∈ ws, x.id ≠ w.id) →
      ((ws.foldl (createMoreStep kenv u tg fz) acc).2.1.filter (fun p => p.1 == w.id))
        = acc.2.1.filter (fun p => p.1 == w.id) := by
  induction ws with
  | nil => intro acc _; rfl
  | cons x ws ih =>
    intro acc hne
    rw [List.foldl_cons, ih _ (fun y hy => hne y (List.mem_cons_of_mem x hy))]
    have hx : x.id ≠ w.id := hne x (List.mem_cons_self x ws)
    simp only [createMoreStep, List.filter_append]
    simp [hx]

theorem createMoreFold_last_other (kenv : KeyEnv) (u tg : Nat) (fz : Bool) (w : WalletEntry)
    (ws : List WalletEntry) :
    ∀ (acc : PuzzleStore × List (Nat × List DerivationRecord) × List (List Nat)),
      (∀ x ∈ ws, x.id ≠ w.id) →
      psGetLastForWallet w.id (ws.foldl (createMoreStep kenv u tg fz) acc).1
        = psGetLastForWallet w.id acc.1 := by
  induction ws with
  | nil => intro acc _; rfl
  | cons x ws ih =>
    intro acc hne
    rw [List.foldl_cons, ih _ (fun y hy => hne y (List.mem_cons_of_mem x hy))]
    show psGetLastForWallet w.id (psAdd (genForWallet kenv x _) acc.1) = _
    refine psGetLastForWallet_add_other _ _ _ ?_
    intro r hr
    rw [genForWallet_wallet_id kenv x _ r hr]
    exact hne x (List.mem_cons_self x ws)

theorem createMoreFold_gens (kenv : KeyEnv) (u tg : Nat) (fz : Bool) (w : WalletEntry)
    (hw1 : (w.wtype == POOLING_WALLET) = false)
    (hw2 : (w.wtype == RATE_LIMITED) = false)
    (hp : ∀ i, (kenv.puzzle_hash_for w.id i).isSome = true) :
    ∀ (ws : List WalletEntry)
      (acc : PuzzleStore × List (Nat × List DerivationRecord) × List (List Nat)),
      w ∈ ws → (∀ x ∈ ws, x.id = w.id → x = w) → (ws.map (fun x => x.id)).Nodup →
      (∀ p ∈ acc.2.1, p.1 ≠ w.id) →
      (((ws.foldl (createMoreStep kenv u tg fz) acc).2.1.filter
          (fun p => p.1 == w.id)).map (fun p => p.2.map (fun r => r.index)))
        = [List.range' (startIndexFor w fz acc.1)
            ((u + tg) - startIndexFor w fz acc.1)] := by
  intro ws
  induction ws with
  | nil => intro acc hmem; exact absurd hmem (List.not_mem_nil w)
  | cons x ws ih =>
    intro acc hmem huniq hnodup hacc
    rw [List.map_cons, List.nodup_cons] at hnodup
    by_cases hxw : x = w
    · subst hxw
      have hne : ∀ y ∈ ws, y.id ≠ x.id := by
        intro y hy heq
        exact hnodup.1 (heq ▸ List.mem_map_of_mem (fun z => z.id) hy)
      rw [List.foldl_cons, createMoreFold_other kenv u tg fz x ws _ hne]
      show ((acc.2.1 ++ [(x.id, genForWallet kenv x
          (List.range' (startIndexFor x fz acc.1)
            ((u + tg) - startIndexFor x fz acc.1)))]).filter
          (fun p => p.1 == x.id)).map (fun p => p.2.map (fun r => r.index)) = _
      rw [List.filter_append]
      have hnilf : acc.2.1.filter (fun p => p.1 == x.id) = [] := by
        rw [List.filter_eq_nil_iff]
        intro p hpmem
        simpa using hacc p hpmem
      rw [hnilf]
      simp only [List.nil_append, List.filter_cons, beq_self_eq_true, if_true,
        List.filter_nil, List.map_cons, List.map_nil]
      rw [genForWallet_index kenv x _ hw1 hw2 (fun i _ => hp i)]
    · have hxid : x.id ≠ w.id := by
        intro heq
        exact hxw (huniq x (List.mem_cons_self x ws) heq)
      have hmem2 : w ∈ ws := by
        rcases List.mem_cons.1 hmem with h | h
        · exact absurd h.symm hxw
        · exact h
      rw [List.foldl_cons]
      have hstart : startIndexFor w fz (createMoreStep kenv u tg fz acc x).1
          = startIndexFor w fz acc.1 := by
        unfold startIndexFor
        have : psGetLastForWallet w.id (createMoreStep kenv u tg fz acc x).1
            = psGetLastForWallet w.id acc.1 := by
          show psGetLastForWallet w.id (psAdd (genForWallet kenv x _) acc.1) = _
          refine psGetLastForWallet_add_other _ _ _ ?_
          intro r hr
          rw [genForWallet_wallet_id kenv x _ r hr]
          exact hxid
        rw [this]
      rw [← hstart]
      refine ih (createMoreStep kenv u tg fz acc x) hmem2
        (fun y hy => huniq y (List.mem_cons_of_mem x hy)) hnodup.2 ?_
      intro p hpmem
      show p.1 ≠ w.id
      have : p ∈ acc.2.1 ++ [(x.id, genForWallet kenv x _)] := hpmem
      rcases List.mem_append.1 this with h1 | h1
      · exact hacc p h1
      · rw [List.mem_singleton] at h1
        rw [h1]
        exact hxid

/-- Claim C8: for every registered wallet of the standard type whose
puzzles all build, create_more_puzzle_hashes generates exactly the indices
of `[start, unused + N)` with `N` chosen by the new-wallet flag and `start`
zero under `from_zero`, else one past the wallet's last generated index;
and when `unused = 0` (the empty-database bootstrap) the used-up-to pointer
is not advanced. -/
theorem claim_C8 (kenv : KeyEnv) (wallets : List WalletEntry) (ps : PuzzleStore)
    (new_wallet from_zero : Bool) (init_num init_num_new : Nat) (w : WalletEntry)
    (hw : w ∈ wallets) (hstd : w.wtype = STANDARD_WALLET)
    (hids : (wallets.map (fun x => x.id)).Nodup)
    (hp : ∀ i, (kenv.puzzle_hash_for w.id i).isSome = true) :
    (((createMorePuzzleHashes kenv wallets ps new_wallet init_num init_num_new
          from_zero).2.1.filter
        (fun p => p.1 == w.id)).map (fun p => p.2.map (fun r => r.index)))
      = [List.range' (startIndexFor w from_zero ps)
          ((unusedDerivation ps + (if new_wallet then init_num_new else init_num))
            - startIndexFor w from_zero ps)]
    ∧ (unusedDerivation ps = 0 →
        (createMorePuzzleHashes kenv wallets ps new_wallet init_num init_num_new
            from_zero).1.used_up_to
          = ps.used_up_to) := by
  have hw1 : (w.wtype == POOLING_WALLET) = false := by
    simp [hstd, STANDARD_WALLET, POOLING_WALLET]
  have hw2 : (w.wtype == RATE_LIMITED) = false := by
    simp [hstd, STANDARD_WALLET, RATE_LIMITED]
  have huniq : ∀ x ∈ wallets, x.id = w.id → x = w := by
    intro x hx heq
    exact List.inj_on_of_nodup_map hids hx hw heq
  constructor
  · exact createMoreFold_gens kenv (unusedDerivation ps)
      (if new_wallet then init_num_new else init_num) from_zero w hw1 hw2 hp
      wallets (ps, [], []) hw huniq hids (by simp)
  · intro hz
    simp only [createMorePuzzleHashes, hz]
    rw [if_neg (Nat.lt_irrefl 0)]
    exact createMoreFold_used _ _ _ _ _ _

/-- Witness for claim C8: the bootstrap scenario, one standard wallet and
an empty store with `initial_num_public_keys = 8` and `from_zero = true`
yields exactly indices 0..7 and leaves the used-up-to pointer untouched. -/
theorem claim_C8_witness :
    (((createMorePuzzleHashes ⟨fun wid i => some (wid * 1000 + i), fun i => i⟩
        [⟨1, STANDARD_WALLET, false, none, 0, 0⟩]
        ⟨[], none⟩ false 8 18 true).2.1.filter
        (fun p => p.1 == 1)).map (fun p => p.2.map (fun r => r.index)))
      = [List.range' 0 8]
    ∧ (createMorePuzzleHashes ⟨fun wid i => some (wid * 1000 + i), fun i => i⟩
        [⟨1, STANDARD_WALLET, false, none, 0, 0⟩]
        ⟨[], none⟩ false 8 18 true).1.used_up_to = none := by
  have h := claim_C8 ⟨fun wid i => some (wid * 1000 + i), fun i => i⟩
    [⟨1, STANDARD_WALLET, false, none, 0, 0⟩] ⟨[], none⟩ false true 8 18
    ⟨1, STANDARD_WALLET, false, none, 0, 0⟩
    (List.mem_cons_self _ _) rfl (by simp) (fun i => rfl)
  exact ⟨h.1, h.2 rfl⟩

/-! ## Helper lemmas: ledger lookups and confirmation updates -/

theorem find?_filter_of_imp {α : Type} (p q : α → Bool) (l : List α)
    (h : ∀ x, p x = true → q x = true) : (l.filter q).find? p = l.find? p := by
  induction l with
  | nil => rfl
  | cons x xs ih =>
    by_cases hq : q x = true
    · rw [List.filter_cons_of_pos hq]
      cases hp : p x <;> simp [List.find?_cons, hp, ih]
    · rw [List.filter_cons_of_neg (by simpa using hq)]
      have hp : p x = false := by
        cases hpx : p x
        · rfl
        · exact absurd (h x hpx) hq
      simp [List.find?_cons, hp, ih]

theorem findCoinRecord_addCoinRecord (r : WalletCoinRecord)
    (l : List WalletCoinRecord) (n : Nat) :
    findCoinRecord (addCoinRecord r l) n
      = if r.coin.name = n then some r else findCoinRecord l n := by
  unfold findCoinRecord addCoinRecord
  by_cases h : r.coin.name = n
  · simp [List.find?_cons, h]
  · have hh : (r.coin.name == n) = false := by simpa using h
    simp only [List.find?_cons, hh, if_neg h]
    refine find?_filter_of_imp _ _ l ?_
    intro x hx
    have hxn : x.coin.name = n := by simpa using hx
    rw [hxn]
    simp only [bne_iff_ne, ne_eq]
    exact fun heq => h heq.symm

theorem findCoinRecord_setSpent (n h m : Nat) (l : List WalletCoinRecord) :
    findCoinRecord (setSpent n h l) m
      = (findCoinRecord l m).map
          (fun r => if r.coin.name == n then { r with spent_height := h, spent := true } else r) := by
  unfold findCoinRecord setSpent
  induction l with
  | nil => rfl
  | cons x xs ih =>
    have hpres : ((if x.coin.name == n then
        { x with spent_height := h, spent := true } else x).coin.name) = x.coin.name := by
      split <;> rfl
    cases hx : (x.coin.name == m) with
    | true =>
      simp only [List.map_cons, List.find?_cons, hpres, hx]
      rfl
    | false =>
      simp only [List.map_cons, List.find?_cons, hpres, hx]
      exact ih

theorem findCoinRecord_mem {l : List WalletCoinRecord} {n : Nat}
    {r : WalletCoinRecord} (h : findCoinRecord l n = some r) :
    r ∈ l ∧ r.coin.name = n := by
  refine ⟨List.mem_of_find?_eq_some h, ?_⟩
  have := List.find?_some h
  simpa using this

theorem sameCore_refl (t : TransactionRecord) : sameCore t t :=
  ⟨rfl, rfl, rfl, rfl, rfl, rfl, rfl, rfl⟩

theorem sameCore_trans {a b c : TransactionRecord}
    (h1 : sameCore a b) (h2 : sameCore b c) : sameCore a c := by
  obtain ⟨x1, x2, x3, x4, x5, x6, x7, x8⟩ := h1
  obtain ⟨y1, y2, y3, y4, y5, y6, y7, y8⟩ := h2
  exact ⟨x1.trans y1, x2.trans y2, x3.trans y3, x4.trans y4,
    x5.trans y5, x6.trans y6, x7.trans y7, x8.trans y8⟩

theorem sameCore_setConfirmedTx_fun (n h : Nat) (t : TransactionRecord) :
    sameCore t (if t.name == n then { t with confirmed := true, confirmed_at_height := h } else t) := by
  split
  · exact ⟨rfl, rfl, rfl, rfl, rfl, rfl, rfl, rfl⟩
  · exact sameCore_refl t

theorem sameCore_setConfirmedTx_back (n h : Nat) (l : List TransactionRecord) :
    ∀ t ∈ setConfirmedTx n h l, ∃ u ∈ l, sameCore u t := by
  intro t ht
  unfold setConfirmedTx at ht
  rw [List.mem_map] at ht
  obtain ⟨u, hu, rfl⟩ := ht
  exact ⟨u, hu, sameCore_setConfirmedTx_fun n h u⟩

theorem sameCore_setConfirmedTx_fwd (n h : Nat) (l : List TransactionRecord) :
    ∀ u ∈ l, ∃ t ∈ setConfirmedTx n h l, sameCore u t := by
  intro u hu
  exact ⟨_, List.mem_map_of_mem _ hu, sameCore_setConfirmedTx_fun n h u⟩

theorem sameCore_confirmRecords_back (h : Nat) (rs : List TransactionRecord) :
    ∀ (l : List TransactionRecord), ∀ t ∈ confirmRecords h rs l, ∃ u ∈ l, sameCore u t := by
  induction rs with
  | nil => intro l t ht; exact ⟨t, ht, sameCore_refl t⟩
  | cons r rs ih =>
    intro l t ht
    have ht2 : t ∈ confirmRecords h rs (if r.confirmed then l else setConfirmedTx r.name h l) := ht
    obtain ⟨u, hu, hcore⟩ := ih _ t ht2
    by_cases hc : r.confirmed
    · rw [if_pos hc] at hu
      exact ⟨u, hu, hcore⟩
    · rw [if_neg hc] at hu
      obtain ⟨v, hv, hcore2⟩ := sameCore_setConfirmedTx_back r.name h l u hu
      exact ⟨v, hv, sameCore_trans hcore2 hcore⟩

theorem confirmUnconfirmedRemovals_other_fields (a : List TransactionRecord)
    (n sh : Nat) :
    ∀ (s : WalletState),
      (confirmUnconfirmedRemovals a n sh s).coin_records = s.coin_records ∧
      (confirmUnconfirmedRemovals a n sh s).used_up_to = s.used_up_to ∧
      (confirmUnconfirmedRemovals a n sh s).next_tx_name = s.next_tx_name ∧
      (confirmUnconfirmedRemovals a n sh s).events = s.events := by
  induction a with
  | nil => intro s; exact ⟨rfl, rfl, rfl, rfl⟩
  | cons u rest ih =>
    intro s
    have step : confirmUnconfirmedRemovals (u :: rest) n sh s
        = confirmUnconfirmedRemovals rest n sh
            (if u.removals.any (fun rc => rc.name == n) then
              { s with tx_records := setConfirmedTx u.name sh s.tx_records }
            else s) := rfl
    rw [step]
    obtain ⟨h1, h2, h3, h4⟩ := ih (if u.removals.any (fun rc => rc.name == n) then
      { s with tx_records := setConfirmedTx u.name sh s.tx_records } else s)
    constructor
    · rw [h1]; split <;> rfl
    constructor
    · rw [h2]; split <;> rfl
    constructor
    · rw [h3]; split <;> rfl
    · rw [h4]; split <;> rfl

theorem sameCore_confirmUnconfirmedRemovals_back (a : List TransactionRecord)
    (n sh : Nat) :
    ∀ (s : WalletState), ∀ t ∈ (confirmUnconfirmedRemovals a n sh s).tx_records,
      ∃ u ∈ s.tx_records, sameCore u t := by
  induction a with
  | nil => intro s t ht; exact ⟨t, ht, sameCore_refl t⟩
  | cons u rest ih =>
    intro s t ht
    have ht2 : t ∈ (confirmUnconfirmedRemovals rest n sh
        (if u.removals.any (fun rc => rc.name == n) then
          { s with tx_records := setConfirmedTx u.name sh s.tx_records }
        else s)).tx_records := ht
    obtain ⟨v, hv, hcore⟩ := ih _ t ht2
    by_cases hc : u.removals.any (fun rc => rc.name == n) = true
    · rw [if_pos hc] at hv
      obtain ⟨w2, hw2, hcore2⟩ := sameCore_setConfirmedTx_back u.name sh s.tx_records v hv
      exact ⟨w2, hw2, sameCore_trans hcore2 hcore⟩
    · rw [if_neg hc] at hv
      exact ⟨v, hv, hcore⟩

theorem sameCore_confirmUnconfirmedRemovals_fwd (a : List TransactionRecord)
    (n sh : Nat) :
    ∀ (s : WalletState), ∀ u ∈ s.tx_records,
      ∃ t ∈ (confirmUnconfirmedRemovals a n sh s).tx_records, sameCore u t := by
  induction a with
  | nil => intro s u hu; exact ⟨u, hu, sameCore_refl u⟩
  | cons x rest ih =>
    intro s u hu
    by_cases hc : x.removals.any (fun rc => rc.name == n) = true
    · obtain ⟨v, hv, hcore⟩ := sameCore_setConfirmedTx_fwd x.name sh s.tx_records u hu
      obtain ⟨t, ht, hcore2⟩ := ih { s with tx_records := setConfirmedTx x.name sh s.tx_records } v hv
      refine ⟨t, ?_, sameCore_trans hcore hcore2⟩
      show t ∈ (confirmUnconfirmedRemovals rest n sh
        (if x.removals.any (fun rc => rc.name == n) then
          { s with tx_records := setConfirmedTx x.name sh s.tx_records } else s)).tx_records
      rw [if_pos hc]
      exact ht
    · obtain ⟨t, ht, hcore2⟩ := ih s u hu
      refine ⟨t, ?_, hcore2⟩
      show t ∈ (confirmUnconfirmedRemovals rest n sh
        (if x.removals.any (fun rc => rc.name == n) then
          { s with tx_records := setConfirmedTx x.name sh s.tx_records } else s)).tx_records
      rw [if_neg hc]
      exact ht

/-- Claim C5: when the ledger holds the parent record and its wallet id and
wallet type match the new coin's, coin_added classifies the coin as change:
no incoming transaction record is created (the transaction ledger keeps
exactly the records it had, up to confirmation updates), while the
WalletCoinRecord is still written and the coin_added event is emitted. -/
theorem claim_C5 (env : WalletEnv) (s : WalletState) (coin : Coin)
    (coinbase fee_reward : Bool) (wid wt height : Nat)
    (all_outgoing : List TransactionRecord) (pr : WalletCoinRecord)
    (hpr : findCoinRecord s.coin_records coin.parent_coin_info = some pr)
    (_hid : pr.wallet_id = wid) (hty : pr.wallet_type = wt) :
    (∀ t ∈ (coinAdded env s coin coinbase fee_reward wid wt height all_outgoing).1.tx_records,
      ∃ u ∈ s.tx_records, u.name = t.name ∧ u.tx_type = t.tx_type) ∧
    findCoinRecord
        (coinAdded env s coin coinbase fee_reward wid wt height all_outgoing).1.coin_records
        coin.name
      = some { coin := coin, confirmed_height := height, spent_height := 0, spent := false
               coinbase := coinbase || fee_reward, wallet_type := wt, wallet_id := wid } ∧
    (coinAdded env s coin coinbase fee_reward wid wt height all_outgoing).1.events
      = ("coin_added", wid) :: s.events := by
  have hch : (wt == pr.wallet_type) = true := by simp [hty]
  unfold coinAdded
  rw [hpr]
  simp only [hch, if_true]
  refine ⟨?_, ?_, ?_⟩
  · intro t ht
    by_cases hcf : (coinbase || fee_reward) = true
    · rw [if_pos hcf] at ht
      exact ⟨t, ht, rfl, rfl⟩
    · rw [if_neg hcf] at ht
      by_cases hre : (all_outgoing.filter
          (fun r => r.additions.any (fun a => a.name == coin.name))).isEmpty = true
      · rw [if_pos hre] at ht
        exact ⟨t, ht, rfl, rfl⟩
      · rw [if_neg hre] at ht
        obtain ⟨u, hu, hcore⟩ := sameCore_confirmRecords_back height _ s.tx_records t ht
        exact ⟨u, hu, hcore.1, hcore.2.1⟩
  · rw [findCoinRecord_addCoinRecord]
    simp
  · trivial

/-- Witness for claim C5: a change coin whose parent record (wallet 1,
standard type) is in the ledger; the coin record is written and the event
emitted. -/
theorem claim_C5_witness :
    findCoinRecord
        (coinAdded envOwn1
          { coin_records := [{ coin := ⟨0, 2, 50⟩, confirmed_height := 4, spent_height := 0
                               spent := false, coinbase := false, wallet_type := 0, wallet_id := 1 }]
            tx_records := [], used_up_to := none, next_tx_name := 0, events := [] }
          ⟨(⟨0, 2, 50⟩ : Coin).name, 1, 30⟩ false false 1 0 9 []).1.coin_records
        (⟨(⟨0, 2, 50⟩ : Coin).name, 1, 30⟩ : Coin).name
      = some { coin := ⟨(⟨0, 2, 50⟩ : Coin).name, 1, 30⟩, confirmed_height := 9
               spent_height := 0, spent := false, coinbase := false
               wallet_type := 0, wallet_id := 1 } ∧
    (coinAdded envOwn1
        { coin_records := [{ coin := ⟨0, 2, 50⟩, confirmed_height := 4, spent_height := 0
                             spent := false, coinbase := false, wallet_type := 0, wallet_id := 1 }]
          tx_records := [], used_up_to := none, next_tx_name := 0, events := [] }
        ⟨(⟨0, 2, 50⟩ : Coin).name, 1, 30⟩ false false 1 0 9 []).1.events
      = [("coin_added", 1)] := by
  have h := claim_C5 envOwn1
    { coin_records := [{ coin := ⟨0, 2, 50⟩, confirmed_height := 4, spent_height := 0
                         spent := false, coinbase := false, wallet_type := 0, wallet_id := 1 }]
      tx_records := [], used_up_to := none, next_tx_name := 0, events := [] }
    ⟨(⟨0, 2, 50⟩ : Coin).name, 1, 30⟩ false false 1 0 9 []
    { coin := ⟨0, 2, 50⟩, confirmed_height := 4, spent_height := 0
      spent := false, coinbase := false, wallet_type := 0, wallet_id := 1 }
    (by decide) rfl rfl
  exact ⟨h.2.1, h.2.2⟩

/-! ## Helper lemmas: batch sorting (claim C9) -/

theorem cmpLe_none_left (b : Option Nat) : cmpLe none b = .error .typeError := by
  cases b <;> rfl

theorem cmpLe_none_right (a : Option Nat) : cmpLe a none = .error .typeError := by
  cases a <;> rfl

theorem insertSorted_error (x y : CoinState) (ys : List CoinState)
    (h : x.created_height = none ∨ y.created_height = none) :
    insertSorted x (y :: ys) = .error .typeError := by
  unfold insertSorted
  rcases h with h | h
  · rw [h, cmpLe_none_left]
  · rw [h, cmpLe_none_right]

theorem insertSorted_some_ok (x : CoinState)
    (hx : x.created_height.isSome = true) :
    ∀ (t : List CoinState), (∀ y ∈ t, y.created_height.isSome = true) →
    ∃ t', insertSorted x t = .ok t' ∧ (∀ y ∈ t', y.created_height.isSome = true) ∧
      t'.length = t.length + 1 := by
  intro t
  induction t with
  | nil =>
    intro _
    refine ⟨[x], rfl, ?_, rfl⟩
    intro y hy
    rw [List.mem_singleton.1 hy]
    exact hx
  | cons y ys ih =>
    intro ht
    obtain ⟨a, ha⟩ := Option.isSome_iff_exists.1 hx
    obtain ⟨b, hb⟩ := Option.isSome_iff_exists.1 (ht y (List.mem_cons_self y ys))
    have hys : ∀ z ∈ ys, z.created_height.isSome = true :=
      fun z hz => ht z (List.mem_cons_of_mem y hz)
    cases hab : decide (a ≤ b) with
    | true =>
      refine ⟨x :: y :: ys, ?_, ?_, rfl⟩
      · unfold insertSorted
        rw [ha, hb]
        simp only [cmpLe, hab]
      · intro z hz
        rcases List.mem_cons.1 hz with rfl | hz2
        · exact hx
        · exact ht z hz2
    | false =>
      obtain ⟨t', hok, hall, hlen⟩ := ih hys
      refine ⟨y :: t', ?_, ?_, by simp [hlen]⟩
      · unfold insertSorted
        rw [ha, hb]
        simp only [cmpLe, hab, hok]
      · intro z hz
        rcases List.mem_cons.1 hz with rfl | hz2
        · exact ht _ (List.mem_cons_self _ _)
        · exact hall z hz2

theorem sortCoinStates_some_ok :
    ∀ (l : List CoinState), (∀ y ∈ l, y.created_height.isSome = true) →
    ∃ t, sortCoinStates l = .ok t ∧ (∀ y ∈ t, y.created_height.isSome = true) ∧
      t.length = l.length := by
  intro l
  induction l with
  | nil => intro _; exact ⟨[], rfl, by simp, rfl⟩
  | cons x xs ih =>
    intro hl
    obtain ⟨t, hok, hall, hlen⟩ := ih (fun y hy => hl y (List.mem_cons_of_mem x hy))
    obtain ⟨t', hok2, hall2, hlen2⟩ :=
      insertSorted_some_ok x (hl x (List.mem_cons_self x xs)) t hall
    refine ⟨t', ?_, hall2, by simp [hlen2, hlen]⟩
    unfold sortCoinStates
    rw [hok]
    exact hok2

theorem sortCoinStates_error :
    ∀ (l : List CoinState), 2 ≤ l.length →
      (∃ x ∈ l, x.created_height = none) →
      sortCoinStates l = .error .typeError := by
  intro l
  induction l with
  | nil => intro h; simp at h
  | cons x xs ih =>
    intro hlen hex
    by_cases hxs : ∃ y ∈ xs, y.created_height = none
    · rcases Nat.lt_or_ge xs.length 2 with hl | hl
      · have h1 : xs.length = 1 := by
          simp only [List.length_cons] at hlen
          omega
        obtain ⟨y0, rfl⟩ : ∃ y0, xs = [y0] := by
          cases xs with
          | nil => simp at h1
          | cons y0 ys0 =>
            cases ys0 with
            | nil => exact ⟨y0, rfl⟩
            | cons z zs => simp at h1
        obtain ⟨y, hy, hyn⟩ := hxs
        rw [List.mem_singleton.1 hy] at hyn
        have hred : sortCoinStates (x :: [y0]) = insertSorted x [y0] := rfl
        rw [hred]
        exact insertSorted_error x y0 [] (Or.inr hyn)
      · have herr := ih hl hxs
        unfold sortCoinStates
        rw [herr]
    · have hx : x.created_height = none := by
        obtain ⟨z, hz, hzn⟩ := hex
        rcases List.mem_cons.1 hz with rfl | hzm
        · exact hzn
        · exact absurd ⟨z, hzm, hzn⟩ hxs
      have hsome : ∀ y ∈ xs, y.created_height.isSome = true := by
        intro y hy
        cases hcy : y.created_height with
        | none => exact absurd ⟨y, hy, hcy⟩ hxs
        | some a => rfl
      obtain ⟨t, hok, _, hlen2⟩ := sortCoinStates_some_ok xs hsome
      have hxs_ne : xs ≠ [] := by
        intro h
        subst h
        simp at hlen
      have ht_ne : t ≠ [] := by
        intro h
        subst h
        exact hxs_ne (List.length_eq_zero.1 hlen2.symm)
      obtain ⟨z, zs, rfl⟩ := List.exists_cons_of_ne_nil ht_ne
      unfold sortCoinStates
      rw [hok]
      exact insertSorted_error x z zs (Or.inl hx)

/-- Claim C9: a batch of two or more coin states with at least one absent
created_height makes the initial sort compare None against a key, raising
TypeError: new_coin_state fails as a whole and no coin state is
processed. -/
theorem claim_C9 (env : WalletEnv) (s : WalletState) (cs : List CoinState)
    (fork current : Option Nat)
    (hlen : 2 ≤ cs.length) (hnone : ∃ x ∈ cs, x.created_height = none) :
    newCoinState env s cs fork current = .error PyError.typeError := by
  have hsort := sortCoinStates_error cs hlen hnone
  unfold newCoinState
  rw [hsort]

/-- Witness for claim C9: a two-element batch, one entry the reorged-out
sentinel. -/
theorem claim_C9_witness :
    newCoinState emptyEnv emptyState
      [{ coin := ⟨0, 1, 5⟩, created_height := some 3, spent_height := none },
       { coin := ⟨0, 1, 6⟩, created_height := none, spent_height := none }]
      none none = .error PyError.typeError :=
  claim_C9 emptyEnv emptyState
    [{ coin := ⟨0, 1, 5⟩, created_height := some 3, spent_height := none },
     { coin := ⟨0, 1, 6⟩, created_height := none, spent_height := none }]
    none none (by decide) (by decide)

/-! ## Claim C3: rollback before processing -/

/-- Claim C3 (amended): when fork_height AND current_height are both
present and fork_height differs from current_height - 1, new_coin_state is
the processing loop run on the state AFTER reorg_rollback(fork_height): the
rollback completes before any coin state is processed. -/
theorem claim_C3 (env : WalletEnv) (s : WalletState) (cs : List CoinState)
    (f c : Nat) (h : (f : Int) ≠ (c : Int) - 1) :
    newCoinState env s cs (some f) (some c)
      = match sortCoinStates cs with
        | .error e => .error e
        | .ok sorted =>
          let acc := sorted.foldl
            (processOneCoinState env (getAllUnconfirmed s.tx_records))
            { st := reorgRollback s f, added := [], removed := [], outgoing_cache := []
              trade_adds := [], trade_removed := [] }
          .ok (acc.st, acc.added, acc.removed) := by
  have hcond : rollbackCondition (some f) (some c) = true := by
    simp [rollbackCondition, h]
  unfold newCoinState
  simp only [hcond, if_true, Option.getD_some]

/-- Counterexample to claim C3 as stated: fork_height present and
different from current_height - 1 (current_height is absent), yet the
source skips the rollback because the guard also requires current_height:
the ledger's height-5 record survives although reorg_rollback(0) would have
deleted it. -/
theorem claim_C3_counterexample :
    newCoinState emptyEnv
      { coin_records := [{ coin := ⟨0, 1, 100⟩, confirmed_height := 5, spent_height := 0
                           spent := false, coinbase := false, wallet_type := 0, wallet_id := 1 }]
        tx_records := [], used_up_to := none, next_tx_name := 0, events := [] }
      [] (some 0) none
      = .ok ({ coin_records := [{ coin := ⟨0, 1, 100⟩, confirmed_height := 5, spent_height := 0
                                  spent := false, coinbase := false, wallet_type := 0, wallet_id := 1 }]
               tx_records := [], used_up_to := none, next_tx_name := 0, events := [] }, [], [])
    ∧ reorgRollback
        { coin_records := [{ coin := ⟨0, 1, 100⟩, confirmed_height := 5, spent_height := 0
                             spent := false, coinbase := false, wallet_type := 0, wallet_id := 1 }]
          tx_records := [], used_up_to := none, next_tx_name := 0, events := [] } 0
      ≠ { coin_records := [{ coin := ⟨0, 1, 100⟩, confirmed_height := 5, spent_height := 0
                             spent := false, coinbase := false, wallet_type := 0, wallet_id := 1 }]
          tx_records := [], used_up_to := none, next_tx_name := 0, events := [] } := by
  constructor
  · decide
  · decide

/-- Witness for claim C3 at a concrete reorg: fork 3, current 7. -/
theorem claim_C3_witness :
    newCoinState emptyEnv
      { coin_records := [{ coin := ⟨0, 1, 100⟩, confirmed_height := 5, spent_height := 0
                           spent := false, coinbase := false, wallet_type := 0, wallet_id := 1 }]
        tx_records := [], used_up_to := none, next_tx_name := 0, events := [] }
      [] (some 3) (some 7)
      = .ok ((reorgRollback
          { coin_records := [{ coin := ⟨0, 1, 100⟩, confirmed_height := 5, spent_height := 0
                               spent := false, coinbase := false, wallet_type := 0, wallet_id := 1 }]
            tx_records := [], used_up_to := none, next_tx_name := 0, events := [] } 3), [], []) := by
  rw [claim_C3 emptyEnv _ [] 3 7 (by decide)]
  rfl

/-! ## Helper lemmas: outgoing synthesis (claim C2) -/

theorem outgoingScan_amount (env : WalletEnv) :
    ∀ (l : List Coin) (t : Option Nat) (a : Nat),
      (outgoingScan env t a l).2
        = a + ((notOursChildren env l).map (fun c => c.amount)).sum := by
  intro l
  induction l with
  | nil => intro t a; simp [outgoingScan, notOursChildren]
  | cons c rest ih =>
    intro t a
    cases hd : env.derivation_record_for_puzzle_hash c.puzzle_hash with
    | none =>
      simp only [outgoingScan, hd, ih, notOursChildren, List.filter_cons]
      simp [hd, Nat.add_assoc]
    | some i =>
      simp only [outgoingScan, hd, ih, notOursChildren, List.filter_cons]
      simp [hd]

theorem outgoingScan_to_ph (env : WalletEnv) :
    ∀ (l : List Coin) (t : Option Nat) (a : Nat),
      (outgoingScan env t a l).1
        = match (notOursChildren env l).getLast? with
          | some c => some c.puzzle_hash
          | none => t := by
  intro l
  induction l with
  | nil => intro t a; simp [outgoingScan, notOursChildren]
  | cons c rest ih =>
    intro t a
    cases hd : env.derivation_record_for_puzzle_hash c.puzzle_hash with
    | none =>
      have hfil : notOursChildren env (c :: rest) = c :: notOursChildren env rest := by
        simp [notOursChildren, List.filter_cons, hd]
      simp only [outgoingScan, hd, ih, hfil]
      cases hctx : notOursChildren env rest with
      | nil => simp [List.getLast?_singleton]
      | cons d ds =>
        rw [List.getLast?_cons_cons]
        cases hgl : (d :: ds).getLast? with
        | none => simp at hgl
        | some e => rfl
    | some i =>
      have hfil : notOursChildren env (c :: rest) = notOursChildren env rest := by
        simp [notOursChildren, List.filter_cons, hd]
      simp only [outgoingScan, hd, ih, hfil]

theorem outgoingScan_getD (env : WalletEnv) (l : List Coin) (fb : Nat) :
    ((outgoingScan env none 0 l).1).getD fb = lastNotOursPuzzleHash env l fb := by
  rw [outgoingScan_to_ph]
  unfold lastNotOursPuzzleHash
  cases (notOursChildren env l).getLast? <;> rfl

theorem exists_tx_after_confirm (a : List TransactionRecord) (n sh : Nat)
    (s : WalletState) (u : TransactionRecord) (hu : u ∈ s.tx_records)
    (P : TransactionRecord → Prop) (hP : ∀ t, sameCore u t → P t) :
    ∃ t ∈ (confirmUnconfirmedRemovals a n sh s).tx_records, P t := by
  obtain ⟨t, ht, hcore⟩ := sameCore_confirmUnconfirmedRemovals_fwd a n sh s u hu
  exact ⟨t, ht, hP t hcore⟩

/-- Claim C2 (amended): for a created-and-spent coin state with no existing
record, a known wallet and a nonempty list of fetched children, the
synthesized OUTGOING transaction carries fee = the reveal's reserved fee,
amount = the sum over children with no derivation record of ours, and
to_puzzle_hash = the LAST such child (the loop overwrites it on every
not-ours child), falling back to the first child when every child is
ours. -/
theorem claim_C2 (env : WalletEnv) (allU : List TransactionRecord) (acc : NcsAcc)
    (cs : CoinState) (ch sh wid wt : Nat) (c0 : Coin) (rest : List Coin)
    (hc : cs.created_height = some ch) (hs : cs.spent_height = some sh)
    (hrec : findCoinRecord acc.st.coin_records cs.coin.name = none)
    (hinfo : env.wallet_info_for_puzzle_hash cs.coin.puzzle_hash = some (wid, wt))
    (hch : env.fetch_children cs.coin.name = c0 :: rest) :
    ∃ t ∈ (processOneCoinState env allU acc cs).st.tx_records,
      t.tx_type = OUTGOING_TX ∧
      t.fee_amount = env.reserved_fee sh cs.coin.name ∧
      t.amount = ((notOursChildren env (c0 :: rest)).map (fun c => c.amount)).sum ∧
      t.to_puzzle_hash = lastNotOursPuzzleHash env (c0 :: rest) c0.puzzle_hash ∧
      t.removals = [cs.coin] ∧ t.wallet_id = wid := by
  unfold processOneCoinState
  rw [hinfo]
  simp only [hc, hs]
  unfold processCreatedSpent
  rw [hrec]
  simp only [hch, addTransactionRecord]
  by_cases htr : env.trade_removal cs.coin.name = true
  · simp only [htr, if_true]
    refine exists_tx_after_confirm _ _ _ _ _ (List.mem_cons_self _ _) _ ?_
    intro t hcore
    refine ⟨hcore.2.1.symm, hcore.2.2.2.1.symm, ?_, ?_,
      hcore.2.2.2.2.2.2.1.symm, hcore.2.2.2.2.2.2.2.symm⟩
    · rw [← hcore.2.2.1]
      show (outgoingScan env none 0 (c0 :: rest)).2 = _
      rw [outgoingScan_amount]
      simp
    · rw [← hcore.2.2.2.2.1]
      exact (outgoingScan_getD env (c0 :: rest) c0.puzzle_hash)
  · rw [Bool.not_eq_true] at htr
    simp only [htr, Bool.false_eq_true, if_false]
    refine exists_tx_after_confirm _ _ _ _ _ (List.mem_cons_self _ _) _ ?_
    intro t hcore
    refine ⟨hcore.2.1.symm, hcore.2.2.2.1.symm, ?_, ?_,
      hcore.2.2.2.2.2.2.1.symm, hcore.2.2.2.2.2.2.2.symm⟩
    · rw [← hcore.2.2.1]
      show (outgoingScan env none 0 (c0 :: rest)).2 = _
      rw [outgoingScan_amount]
      simp
    · rw [← hcore.2.2.2.2.1]
      exact (outgoingScan_getD env (c0 :: rest) c0.puzzle_hash)

/-- Counterexample to claim C2 as stated: two fetched children, both not
ours, with puzzle hashes 100 then 200.  The synthesized OUTGOING
transaction's to_puzzle_hash is 200 (the last not-ours child), not the
first not-ours child's 100 that the claim demands. -/
theorem claim_C2_counterexample :
    ¬ (∀ t ∈ (processOneCoinState
        { emptyEnv with
            wallet_info_for_puzzle_hash := fun ph => if ph == 1 then some (1, 0) else none
            fetch_children := fun _ => [⟨50, 100, 5⟩, ⟨51, 200, 7⟩]
            reserved_fee := fun _ _ => 3 }
        [] ⟨emptyState, [], [], [], [], []⟩
        ⟨⟨0, 1, 42⟩, some 90, some 100⟩).st.tx_records,
        t.tx_type = OUTGOING_TX →
        t.to_puzzle_hash = firstNotOursPuzzleHash
          { emptyEnv with
              wallet_info_for_puzzle_hash := fun ph => if ph == 1 then some (1, 0) else none
              fetch_children := fun _ => [⟨50, 100, 5⟩, ⟨51, 200, 7⟩]
              reserved_fee := fun _ _ => 3 }
          [⟨50, 100, 5⟩, ⟨51, 200, 7⟩] 100) := by
  decide

/-- Witness for claim C2 at the same concrete spend: fee 3, amount
5 + 7 = 12, to_puzzle_hash 200 (the last not-ours child). -/
theorem claim_C2_witness :
    ∃ t ∈ (processOneCoinState
        { emptyEnv with
            wallet_info_for_puzzle_hash := fun ph => if ph == 1 then some (1, 0) else none
            fetch_children := fun _ => [⟨50, 100, 5⟩, ⟨51, 200, 7⟩]
            reserved_fee := fun _ _ => 3 }
        [] ⟨emptyState, [], [], [], [], []⟩
        ⟨⟨0, 1, 42⟩, some 90, some 100⟩).st.tx_records,
      t.tx_type = OUTGOING_TX ∧ t.fee_amount = 3 ∧ t.amount = 12 ∧
      t.to_puzzle_hash = 200 ∧ t.removals = [⟨0, 1, 42⟩] ∧ t.wallet_id = 1 :=
  claim_C2
    { emptyEnv with
        wallet_info_for_puzzle_hash := fun ph => if ph == 1 then some (1, 0) else none
        fetch_children := fun _ => [⟨50, 100, 5⟩, ⟨51, 200, 7⟩]
        reserved_fee := fun _ _ => 3 }
    [] ⟨emptyState, [], [], [], [], []⟩
    ⟨⟨0, 1, 42⟩, some 90, some 100⟩ 90 100 1 0 ⟨50, 100, 5⟩ [⟨51, 200, 7⟩]
    rfl rfl rfl rfl rfl

theorem findCoinRecord_addCoinRecord_ne (r : WalletCoinRecord)
    (l : List WalletCoinRecord) (n : Nat) (h : r.coin.name ≠ n) :
    findCoinRecord (addCoinRecord r l) n = findCoinRecord l n := by
  rw [findCoinRecord_addCoinRecord, if_neg h]

theorem mem_tx_ite (b : Prop) [Decidable b] (s1 s2 : WalletState)
    (u : TransactionRecord) (h : u ∈ (if b then s1 else s2).tx_records) :
    u ∈ s1.tx_records ∨ u ∈ s2.tx_records := by
  split at h
  · exact Or.inl h
  · exact Or.inr h

/-- Claim C10: for a created-and-spent coin state with no existing record
and a known wallet, when fetch_children returns no children, no OUTGOING_TX
record is created at all: every resulting transaction is either one the
ledger already had (same name and type) or the INCOMING_TX synthesized for
the creation (only when the coin is not change); the spent WalletCoinRecord
is still written and the coin state still lands in the removed list. -/
theorem claim_C10 (env : WalletEnv) (allU : List TransactionRecord) (acc : NcsAcc)
    (cs : CoinState) (ch sh wid wt : Nat)
    (hc : cs.created_height = some ch) (hs : cs.spent_height = some sh)
    (hrec : findCoinRecord acc.st.coin_records cs.coin.name = none)
    (hinfo : env.wallet_info_for_puzzle_hash cs.coin.puzzle_hash = some (wid, wt))
    (hch : env.fetch_children cs.coin.name = [])
    (hpp : cs.coin.parent_coin_info ≠ cs.coin.name) :
    (∀ t ∈ (processOneCoinState env allU acc cs).st.tx_records,
      (∃ u ∈ acc.st.tx_records, u.name = t.name ∧ u.tx_type = t.tx_type) ∨
        t.tx_type = INCOMING_TX) ∧
    findCoinRecord (processOneCoinState env allU acc cs).st.coin_records cs.coin.name
      = some { coin := cs.coin, confirmed_height := ch, spent_height := sh, spent := true
               coinbase := isFarmerReward env ch cs.coin.parent_coin_info ||
                 (!isFarmerReward env ch cs.coin.parent_coin_info &&
                   isPoolReward env ch cs.coin.parent_coin_info)
               wallet_type := wt, wallet_id := wid } ∧
    (processOneCoinState env allU acc cs).removed = acc.removed ++ [cs] ∧
    (∀ pr, findCoinRecord acc.st.coin_records cs.coin.parent_coin_info = some pr →
      pr.wallet_type ≠ wt →
      ∃ t ∈ (processOneCoinState env allU acc cs).st.tx_records,
        t.tx_type = INCOMING_TX ∧ t.additions = [cs.coin] ∧ t.amount = cs.coin.amount) ∧
    (findCoinRecord acc.st.coin_records cs.coin.parent_coin_info = none →
      ∃ t ∈ (processOneCoinState env allU acc cs).st.tx_records,
        t.tx_type = INCOMING_TX ∧ t.additions = [cs.coin] ∧ t.amount = cs.coin.amount) := by
  have hparent : findCoinRecord (addCoinRecord
      { coin := cs.coin, confirmed_height := ch, spent_height := sh, spent := true
        coinbase := isFarmerReward env ch cs.coin.parent_coin_info ||
          (!isFarmerReward env ch cs.coin.parent_coin_info &&
            isPoolReward env ch cs.coin.parent_coin_info)
        wallet_type := wt, wallet_id := wid } acc.st.coin_records)
      cs.coin.parent_coin_info
      = findCoinRecord acc.st.coin_records cs.coin.parent_coin_info :=
    findCoinRecord_addCoinRecord_ne _ _ _ (fun hx => hpp hx.symm)
  unfold processOneCoinState
  rw [hinfo]
  simp only [hc, hs]
  unfold processCreatedSpent
  rw [hrec]
  simp only [hch, addTransactionRecord, hparent]
  by_cases htr : env.trade_removal cs.coin.name = true
  · simp only [htr, if_true]
    rw [hparent]
    refine ⟨?_, ?_, trivial, ?_, ?_⟩
    · intro t ht
      obtain ⟨u, hu, hcore⟩ := sameCore_confirmUnconfirmedRemovals_back allU cs.coin.name sh _ t ht
      rcases mem_tx_ite _ _ _ u hu with h1 | h1
      · exact Or.inl ⟨u, h1, hcore.1, hcore.2.1⟩
      · rcases List.mem_cons.1 h1 with rfl | h2
        · exact Or.inr hcore.2.1.symm
        · exact Or.inl ⟨u, List.mem_of_mem_filter h2, hcore.1, hcore.2.1⟩
    · rw [(confirmUnconfirmedRemovals_other_fields allU cs.coin.name sh _).1]
      split
      · rw [findCoinRecord_addCoinRecord, if_pos rfl]
      · rw [findCoinRecord_addCoinRecord, if_pos rfl]
    · intro pr hpr hprty
      rw [hpr]
      have hb : (wt == pr.wallet_type) = false := by
        simp
        exact fun hx => hprty hx.symm
      simp only [hb, Bool.false_eq_true, if_false]
      refine exists_tx_after_confirm _ _ _ _ _ (List.mem_cons_self _ _) _ ?_
      intro t hcore
      exact ⟨hcore.2.1.symm, hcore.2.2.2.2.2.1.symm, hcore.2.2.1.symm⟩
    · intro hpr
      rw [hpr]
      simp only [Bool.false_eq_true, if_false]
      refine exists_tx_after_confirm _ _ _ _ _ (List.mem_cons_self _ _) _ ?_
      intro t hcore
      exact ⟨hcore.2.1.symm, hcore.2.2.2.2.2.1.symm, hcore.2.2.1.symm⟩
  · rw [Bool.not_eq_true] at htr
    simp only [htr, Bool.false_eq_true, if_false]
    rw [hparent]
    refine ⟨?_, ?_, trivial, ?_, ?_⟩
    · intro t ht
      obtain ⟨u, hu, hcore⟩ := sameCore_confirmUnconfirmedRemovals_back allU cs.coin.name sh _ t ht
      rcases mem_tx_ite _ _ _ u hu with h1 | h1
      · exact Or.inl ⟨u, h1, hcore.1, hcore.2.1⟩
      · rcases List.mem_cons.1 h1 with rfl | h2
        · exact Or.inr hcore.2.1.symm
        · exact Or.inl ⟨u, List.mem_of_mem_filter h2, hcore.1, hcore.2.1⟩
    · rw [(confirmUnconfirmedRemovals_other_fields allU cs.coin.name sh _).1]
      split
      · rw [findCoinRecord_addCoinRecord, if_pos rfl]
      · rw [findCoinRecord_addCoinRecord, if_pos rfl]
    · intro pr hpr hprty
      rw [hpr]
      have hb : (wt == pr.wallet_type) = false := by
        simp
        exact fun hx => hprty hx.symm
      simp only [hb, Bool.false_eq_true, if_false]
      refine exists_tx_after_confirm _ _ _ _ _ (List.mem_cons_self _ _) _ ?_
      intro t hcore
      exact ⟨hcore.2.1.symm, hcore.2.2.2.2.2.1.symm, hcore.2.2.1.symm⟩
    · intro hpr
      rw [hpr]
      simp only [Bool.false_eq_true, if_false]
      refine exists_tx_after_confirm _ _ _ _ _ (List.mem_cons_self _ _) _ ?_
      intro t hcore
      exact ⟨hcore.2.1.symm, hcore.2.2.2.2.2.1.symm, hcore.2.2.1.symm⟩

/-- Witness for claim C10: a created-and-spent coin of wallet 1 whose spend
has no fetched children; the spent record is written, the coin state lands
in removed, and only an INCOMING_TX is synthesized. -/
theorem claim_C10_witness :
    findCoinRecord (processOneCoinState envOwn1 [] ⟨emptyState, [], [], [], [], []⟩
        ⟨⟨0, 1, 42⟩, some 90, some 100⟩).st.coin_records (⟨0, 1, 42⟩ : Coin).name
      = some { coin := ⟨0, 1, 42⟩, confirmed_height := 90, spent_height := 100, spent := true
               coinbase := false, wallet_type := 0, wallet_id := 1 } ∧
    (processOneCoinState envOwn1 [] ⟨emptyState, [], [], [], [], []⟩
        ⟨⟨0, 1, 42⟩, some 90, some 100⟩).removed = [⟨⟨0, 1, 42⟩, some 90, some 100⟩] ∧
    ∃ t ∈ (processOneCoinState envOwn1 [] ⟨emptyState, [], [], [], [], []⟩
        ⟨⟨0, 1, 42⟩, some 90, some 100⟩).st.tx_records,
      t.tx_type = INCOMING_TX ∧ t.additions = [⟨0, 1, 42⟩] ∧ t.amount = 42 := by
  have h := claim_C10 envOwn1 [] ⟨emptyState, [], [], [], [], []⟩
    ⟨⟨0, 1, 42⟩, some 90, some 100⟩ 90 100 1 0 rfl rfl rfl rfl rfl (by decide)
  exact ⟨h.2.1, h.2.2.1, h.2.2.2.2 rfl⟩

/-! ## Helper lemmas: coin-ledger rollback roundtrip (claim C4) -/

theorem coinRollbackRecord_name {h : Nat} {r r2 : WalletCoinRecord}
    (hg : coinRollbackRecord h r = some r2) : r2.coin.name = r.coin.name := by
  unfold coinRollbackRecord at hg
  split at hg
  · exact absurd hg (by simp)
  · split at hg
    · rw [← Option.some.inj hg]
    · rw [← Option.some.inj hg]

theorem coinRollbackToBlock_clean (h : Nat) (l : List WalletCoinRecord)
    (hcl : ∀ r ∈ l, r.confirmed_height ≤ h ∧ r.spent_height = 0 ∧ r.spent = false) :
    coinRollbackToBlock h l = l := by
  induction l with
  | nil => rfl
  | cons r xs ih =>
    obtain ⟨h1, h2, _⟩ := hcl r (List.mem_cons_self r xs)
    unfold coinRollbackToBlock
    rw [List.filterMap_cons]
    have hg : coinRollbackRecord h r = some r := by
      unfold coinRollbackRecord
      rw [if_neg (by omega), if_neg (by omega)]
    rw [hg]
    have := ih (fun x hx => hcl x (List.mem_cons_of_mem r hx))
    unfold coinRollbackToBlock at this
    rw [this]

theorem mem_names_coinRollbackToBlock (h : Nat) (l : List WalletCoinRecord) (n : Nat)
    (hm : n ∈ (coinRollbackToBlock h l).map (fun x => x.coin.name)) :
    n ∈ l.map (fun x => x.coin.name) := by
  rw [List.mem_map] at hm ⊢
  obtain ⟨x, hx, rfl⟩ := hm
  rw [coinRollbackToBlock, List.mem_filterMap] at hx
  obtain ⟨y, hy, hg⟩ := hx
  exact ⟨y, hy, (coinRollbackRecord_name hg).symm⟩

theorem nodup_coinRollbackToBlock (h : Nat) (l : List WalletCoinRecord)
    (hnd : (l.map (fun x => x.coin.name)).Nodup) :
    ((coinRollbackToBlock h l).map (fun x => x.coin.name)).Nodup := by
  induction l with
  | nil => exact List.nodup_nil
  | cons r xs ih =>
    rw [List.map_cons, List.nodup_cons] at hnd
    unfold coinRollbackToBlock
    rw [List.filterMap_cons]
    cases hg : coinRollbackRecord h r with
    | none => exact ih hnd.2
    | some r2 =>
      rw [List.map_cons, List.nodup_cons]
      refine ⟨?_, ih hnd.2⟩
      rw [coinRollbackRecord_name hg]
      intro hmem
      exact hnd.1 (mem_names_coinRollbackToBlock h xs _ hmem)

theorem nodup_addCoinRecord (r : WalletCoinRecord) (l : List WalletCoinRecord)
    (hnd : (l.map (fun x => x.coin.name)).Nodup) :
    ((addCoinRecord r l).map (fun x => x.coin.name)).Nodup := by
  unfold addCoinRecord
  rw [List.map_cons, List.nodup_cons]
  constructor
  · intro hmem
    rw [List.mem_map] at hmem
    obtain ⟨x, hx, heq⟩ := hmem
    have := List.of_mem_filter hx
    rw [bne_iff_ne] at this
    exact this heq
  · exact ((List.filter_sublist l).map (fun x => x.coin.name)).nodup hnd

theorem names_setSpent (n h : Nat) (l : List WalletCoinRecord) :
    (setSpent n h l).map (fun x => x.coin.name) = l.map (fun x => x.coin.name) := by
  induction l with
  | nil => rfl
  | cons x xs ih =>
    unfold setSpent at ih ⊢
    rw [List.map_cons, List.map_cons, List.map_cons, ih]
    congr 1
    split <;> rfl

theorem findCoinRecord_rollback (h : Nat) :
    ∀ (l : List WalletCoinRecord),
      (l.map (fun x => x.coin.name)).Nodup → ∀ (n : Nat),
      findCoinRecord (coinRollbackToBlock h l) n
        = (findCoinRecord l n).bind (coinRollbackRecord h) := by
  intro l
  induction l with
  | nil => intro _ n; rfl
  | cons r xs ih =>
    intro hnd n
    rw [List.map_cons, List.nodup_cons] at hnd
    unfold coinRollbackToBlock
    rw [List.filterMap_cons]
    cases hg : coinRollbackRecord h r with
    | none =>
      cases hr : (r.coin.name == n) with
      | true =>
        have hrn : r.coin.name = n := by simpa using hr
        have hfx : findCoinRecord xs n = none := by
          cases hfind : findCoinRecord xs n with
          | none => rfl
          | some y =>
            obtain ⟨hymem, hyn⟩ := findCoinRecord_mem hfind
            exact absurd (List.mem_map.2 ⟨y, hymem, hyn.trans hrn.symm⟩) hnd.1
        have hl : findCoinRecord (List.filterMap (coinRollbackRecord h) xs) n = none := by
          have := ih hnd.2 n
          unfold coinRollbackToBlock at this
          rw [this, hfx]
          rfl
        rw [hl]
        show none = (findCoinRecord (r :: xs) n).bind (coinRollbackRecord h)
        have hfr : findCoinRecord (r :: xs) n = some r := by
          unfold findCoinRecord
          rw [List.find?_cons, hr]
        rw [hfr]
        simp [hg]
      | false =>
        have hstep : findCoinRecord (r :: xs) n = findCoinRecord xs n := by
          unfold findCoinRecord
          rw [List.find?_cons, hr]
        rw [hstep]
        have := ih hnd.2 n
        unfold coinRollbackToBlock at this
        exact this
    | some r2 =>
      have hname : r2.coin.name = r.coin.name := coinRollbackRecord_name hg
      cases hr : (r.coin.name == n) with
      | true =>
        have hl : findCoinRecord (r2 :: List.filterMap (coinRollbackRecord h) xs) n = some r2 := by
          unfold findCoinRecord
          rw [List.find?_cons]
          have : (r2.coin.name == n) = true := by rw [hname]; exact hr
          rw [this]
        rw [hl]
        show some r2 = (findCoinRecord (r :: xs) n).bind (coinRollbackRecord h)
        have hfr : findCoinRecord (r :: xs) n = some r := by
          unfold findCoinRecord
          rw [List.find?_cons, hr]
        rw [hfr]
        simp [hg]
      | false =>
        have hl : findCoinRecord (r2 :: List.filterMap (coinRollbackRecord h) xs) n
            = findCoinRecord (List.filterMap (coinRollbackRecord h) xs) n := by
          unfold findCoinRecord
          rw [List.find?_cons]
          have : (r2.coin.name == n) = false := by rw [hname]; exact hr
          rw [this]
        rw [hl]
        have hstep : findCoinRecord (r :: xs) n = findCoinRecord xs n := by
          unfold findCoinRecord
          rw [List.find?_cons, hr]
        rw [hstep]
        have := ih hnd.2 n
        unfold coinRollbackToBlock at this
        exact this

theorem coinRollbackRecord_comp (f h : Nat) (hfh : h ≤ f) (r : WalletCoinRecord) :
    (coinRollbackRecord f r).bind (coinRollbackRecord h) = coinRollbackRecord h r := by
  unfold coinRollbackRecord
  by_cases h1 : f < r.confirmed_height
  · rw [if_pos h1, if_pos (by omega)]
    rfl
  · rw [if_neg h1]
    by_cases h2 : f < r.spent_height
    · rw [if_pos h2]
      simp only [Option.some_bind]
      by_cases h3 : h < r.confirmed_height
      · rw [if_pos h3, if_pos h3]
      · rw [if_neg h3, if_neg h3, if_neg (by omega), if_pos (by omega)]
    · rw [if_neg h2]
      simp only [Option.some_bind]

theorem coinRollbackToBlock_comp (f h : Nat) (hfh : h ≤ f) (l : List WalletCoinRecord) :
    coinRollbackToBlock h (coinRollbackToBlock f l) = coinRollbackToBlock h l := by
  unfold coinRollbackToBlock
  rw [List.filterMap_filterMap]
  exact List.filterMap_congr (fun x _ => coinRollbackRecord_comp f h hfh x)

theorem LedgerInv_add (h : Nat) (L0 l : List WalletCoinRecord) (r : WalletCoinRecord)
    (hinv : LedgerInv h L0 l) (hconf : h < r.confirmed_height)
    (hfresh : findCoinRecord L0 r.coin.name = none) :
    LedgerInv h L0 (addCoinRecord r l) := by
  obtain ⟨hfind, hnd⟩ := hinv
  refine ⟨?_, nodup_addCoinRecord r l hnd⟩
  intro n
  rw [findCoinRecord_rollback h _ (nodup_addCoinRecord r l hnd) n, findCoinRecord_addCoinRecord]
  by_cases hn : r.coin.name = n
  · rw [if_pos hn]
    have hg : coinRollbackRecord h r = none := by
      unfold coinRollbackRecord
      rw [if_pos hconf]
    simp only [Option.some_bind, hg]
    rw [← hn]
    exact hfresh.symm
  · rw [if_neg hn, ← findCoinRecord_rollback h l hnd n]
    exact hfind n

theorem coinRollbackRecord_setSpent_update (h s : Nat) (hs : h < s)
    (r : WalletCoinRecord) :
    coinRollbackRecord h { r with spent_height := s, spent := true }
      = if h < r.confirmed_height then none
        else some { r with spent_height := 0, spent := false } := by
  obtain ⟨coin, conf, sp, spb, cb, wt, wid⟩ := r
  unfold coinRollbackRecord
  dsimp only
  by_cases h1 : h < conf
  · rw [if_pos h1, if_pos h1]
  · rw [if_neg h1, if_neg h1, if_pos hs]

theorem LedgerInv_setSpent (h : Nat) (L0 l : List WalletCoinRecord)
    (hL0 : ∀ r ∈ L0, r.confirmed_height ≤ h ∧ r.spent_height = 0 ∧ r.spent = false)
    (hinv : LedgerInv h L0 l) (nm s : Nat) (hs : h < s) :
    LedgerInv h L0 (setSpent nm s l) := by
  obtain ⟨hfind, hnd⟩ := hinv
  have hnd2 : ((setSpent nm s l).map (fun x => x.coin.name)).Nodup := by
    rw [names_setSpent]
    exact hnd
  refine ⟨?_, hnd2⟩
  intro n
  rw [findCoinRecord_rollback h _ hnd2 n, findCoinRecord_setSpent]
  cases hfl : findCoinRecord l n with
  | none =>
    have hbase := hfind n
    rw [findCoinRecord_rollback h l hnd n, hfl] at hbase
    simp only [Option.map_none', Option.none_bind]
    simpa using hbase
  | some r =>
    have hbase := hfind n
    rw [findCoinRecord_rollback h l hnd n, hfl] at hbase
    simp only [Option.some_bind] at hbase
    simp only [Option.map_some', Option.some_bind]
    by_cases hrnm : (r.coin.name == nm) = true
    · rw [if_pos hrnm, coinRollbackRecord_setSpent_update h s hs r]
      by_cases h1 : h < r.confirmed_height
      · rw [if_pos h1, ← hbase]
        unfold coinRollbackRecord
        rw [if_pos h1]
      · rw [if_neg h1]
        unfold coinRollbackRecord at hbase
        rw [if_neg h1] at hbase
        by_cases h2 : h < r.spent_height
        · rw [if_pos h2] at hbase
          rw [← hbase]
        · rw [if_neg h2] at hbase
          obtain ⟨hm, _⟩ := findCoinRecord_mem hbase.symm
          obtain ⟨_, hsp0, hspf⟩ := hL0 r hm
          have hrr : ({ r with spent_height := 0, spent := false } : WalletCoinRecord) = r := by
            obtain ⟨coin, conf, sp, spb, cb, wt2, wid2⟩ := r
            dsimp only at hsp0 hspf ⊢
            rw [hsp0, hspf]
          rw [hrr]
          exact hbase
    · rw [if_neg hrnm]
      exact hbase

theorem LedgerInv_rollback (h f : Nat) (hf : h ≤ f) (L0 l : List WalletCoinRecord)
    (hinv : LedgerInv h L0 l) :
    LedgerInv h L0 (coinRollbackToBlock f l) := by
  obtain ⟨hfind, hnd⟩ := hinv
  refine ⟨?_, nodup_coinRollbackToBlock f l hnd⟩
  intro n
  rw [coinRollbackToBlock_comp f h hf]
  exact hfind n

theorem confirmUnconfirmedRemovals_coin_records (a : List TransactionRecord)
    (n sh : Nat) (s : WalletState) :
    (confirmUnconfirmedRemovals a n sh s).coin_records = s.coin_records :=
  (confirmUnconfirmedRemovals_other_fields a n sh s).1

theorem coinAdded_coin_records (env : WalletEnv) (s : WalletState) (coin : Coin)
    (cb fr : Bool) (wid wt height : Nat) (ao : List TransactionRecord) :
    ((coinAdded env s coin cb fr wid wt height ao).1).coin_records
      = addCoinRecord
          { coin := coin, confirmed_height := height, spent_height := 0
            spent := false, coinbase := cb || fr, wallet_type := wt
            wallet_id := wid } s.coin_records := rfl

theorem processCreatedUnspent_coin_records_some (env : WalletEnv) (acc : NcsAcc)
    (cs : CoinState) (ch wid wt : Nat) (interested : Option Nat) :
    (processCreatedUnspent env acc cs ch (some (wid, wt)) interested).st.coin_records
      = addCoinRecord
          { coin := cs.coin, confirmed_height := ch, spent_height := 0, spent := false
            coinbase := (!isFarmerReward env ch cs.coin.parent_coin_info &&
                isPoolReward env ch cs.coin.parent_coin_info) ||
              isFarmerReward env ch cs.coin.parent_coin_info
            wallet_type := wt, wallet_id := wid } acc.st.coin_records := by
  unfold processCreatedUnspent
  repeat' first
    | rfl
    | dsimp only
    | split

theorem processCreatedUnspent_coin_records_none_none (env : WalletEnv) (acc : NcsAcc)
    (cs : CoinState) (ch : Nat) :
    (processCreatedUnspent env acc cs ch none none).st.coin_records
      = acc.st.coin_records := by
  unfold processCreatedUnspent
  repeat' first
    | rfl
    | dsimp only
    | split

theorem processCreatedUnspent_coin_records_none_some (env : WalletEnv) (acc : NcsAcc)
    (cs : CoinState) (ch wid : Nat) :
    (processCreatedUnspent env acc cs ch none (some wid)).st.coin_records
      = addCoinRecord
          { coin := cs.coin, confirmed_height := ch, spent_height := 0, spent := false
            coinbase := (!isFarmerReward env ch cs.coin.parent_coin_info &&
                isPoolReward env ch cs.coin.parent_coin_info) ||
              isFarmerReward env ch cs.coin.parent_coin_info
            wallet_type := env.wallet_type_of wid, wallet_id := wid } acc.st.coin_records := by
  unfold processCreatedUnspent
  repeat' first
    | rfl
    | dsimp only
    | split

theorem processCreatedSpent_coin_records_none_some (env : WalletEnv)
    (allU : List TransactionRecord) (acc : NcsAcc) (cs : CoinState)
    (ch sh wid wt : Nat)
    (hrec : findCoinRecord acc.st.coin_records cs.coin.name = none) :
    (processCreatedSpent env allU acc cs ch sh (some (wid, wt))).st.coin_records
      = addCoinRecord
          { coin := cs.coin, confirmed_height := ch, spent_height := sh, spent := true
            coinbase := isFarmerReward env ch cs.coin.parent_coin_info ||
              (!isFarmerReward env ch cs.coin.parent_coin_info &&
                isPoolReward env ch cs.coin.parent_coin_info)
            wallet_type := wt, wallet_id := wid } acc.st.coin_records := by
  unfold processCreatedSpent
  rw [hrec]
  simp only [confirmUnconfirmedRemovals_coin_records]
  repeat' first
    | rfl
    | dsimp only
    | split

theorem processCreatedSpent_coin_records_none_none (env : WalletEnv)
    (allU : List TransactionRecord) (acc : NcsAcc) (cs : CoinState) (ch sh : Nat)
    (hrec : findCoinRecord acc.st.coin_records cs.coin.name = none) :
    (processCreatedSpent env allU acc cs ch sh none).st.coin_records
      = acc.st.coin_records := by
  unfold processCreatedSpent
  rw [hrec]
  simp only [confirmUnconfirmedRemovals_coin_records]
  repeat' first
    | rfl
    | dsimp only
    | split

theorem processCreatedSpent_coin_records_some (env : WalletEnv)
    (allU : List TransactionRecord) (acc : NcsAcc) (cs : CoinState) (ch sh : Nat)
    (info : Option (Nat × Nat)) (r0 : WalletCoinRecord)
    (hrec : findCoinRecord acc.st.coin_records cs.coin.name = some r0) :
    (processCreatedSpent env allU acc cs ch sh info).st.coin_records
      = setSpent cs.coin.name sh acc.st.coin_records := by
  unfold processCreatedSpent
  rw [hrec]
  simp only [confirmUnconfirmedRemovals_coin_records]
  repeat' first
    | rfl
    | dsimp only
    | split

theorem processOneCoinState_ledger (env : WalletEnv) (allU : List TransactionRecord)
    (h : Nat) (L0 : List WalletCoinRecord)
    (hL0 : ∀ r ∈ L0, r.confirmed_height ≤ h ∧ r.spent_height = 0 ∧ r.spent = false)
    (acc : NcsAcc) (cs : CoinState)
    (hcs_c : ∀ c, cs.created_height = some c → h < c)
    (hcs_s : ∀ sp, cs.spent_height = some sp → h < sp)
    (hfresh : cs.spent_height = none → findCoinRecord L0 cs.coin.name = none)
    (hinv : LedgerInv h L0 acc.st.coin_records) :
    LedgerInv h L0 (processOneCoinState env allU acc cs).st.coin_records := by
  unfold processOneCoinState
  cases hc : cs.created_height with
  | none =>
    simp only [hc]
    exact hinv
  | some ch =>
    cases hs : cs.spent_height with
    | none =>
      simp only [hc, hs]
      cases hinfo : env.wallet_info_for_puzzle_hash cs.coin.puzzle_hash with
      | some p =>
        obtain ⟨wid, wt⟩ := p
        rw [processCreatedUnspent_coin_records_some]
        exact LedgerInv_add h L0 _ _ hinv (hcs_c ch hc) (hfresh hs)
      | none =>
        cases hint : env.interested_puzzle_hash_wallet_id cs.coin.puzzle_hash with
        | some wid =>
          rw [processCreatedUnspent_coin_records_none_some]
          exact LedgerInv_add h L0 _ _ hinv (hcs_c ch hc) (hfresh hs)
        | none =>
          rw [processCreatedUnspent_coin_records_none_none]
          exact hinv
    | some sh =>
      simp only [hc, hs]
      cases hrec : findCoinRecord acc.st.coin_records cs.coin.name with
      | none =>
        cases hinfo : env.wallet_info_for_puzzle_hash cs.coin.puzzle_hash with
        | some p =>
          obtain ⟨wid, wt⟩ := p
          rw [processCreatedSpent_coin_records_none_some env allU acc cs ch sh wid wt hrec]
          refine LedgerInv_add h L0 _ _ hinv (hcs_c ch hc) ?_
          have hthis := hinv.1 cs.coin.name
          rw [findCoinRecord_rollback h _ hinv.2, hrec] at hthis
          simp only [Option.none_bind] at hthis
          exact hthis.symm
        | none =>
          rw [processCreatedSpent_coin_records_none_none env allU acc cs ch sh hrec]
          exact hinv
      | some r0 =>
        rw [processCreatedSpent_coin_records_some env allU acc cs ch sh _ r0 hrec]
        exact LedgerInv_setSpent h L0 _ hL0 hinv cs.coin.name sh (hcs_s sh hs)

theorem insertSorted_mem (x : CoinState) :
    ∀ (t t2 : List CoinState), insertSorted x t = .ok t2 → ∀ y ∈ t2, y = x ∨ y ∈ t := by
  intro t
  induction t with
  | nil =>
    intro t2 hok y hy
    unfold insertSorted at hok
    injection hok with h
    subst h
    rw [List.mem_singleton] at hy
    exact Or.inl hy
  | cons z zs ih =>
    intro t2 hok y hy
    unfold insertSorted at hok
    cases hcmp : cmpLe x.created_height z.created_height with
    | error e => rw [hcmp] at hok; simp at hok
    | ok b =>
      rw [hcmp] at hok
      cases b with
      | true =>
        injection hok with h
        subst h
        rcases List.mem_cons.1 hy with rfl | hy2
        · exact Or.inl rfl
        · exact Or.inr hy2
      | false =>
        cases hrec : insertSorted x zs with
        | error e => rw [hrec] at hok; simp at hok
        | ok t3 =>
          rw [hrec] at hok
          injection hok with h
          subst h
          rcases List.mem_cons.1 hy with rfl | hy2
          · exact Or.inr (List.mem_cons_self _ _)
          · rcases ih t3 hrec y hy2 with h1 | h1
            · exact Or.inl h1
            · exact Or.inr (List.mem_cons_of_mem _ h1)

theorem sortCoinStates_mem :
    ∀ (l t : List CoinState), sortCoinStates l = .ok t → ∀ y ∈ t, y ∈ l := by
  intro l
  induction l with
  | nil =>
    intro t hok y hy
    unfold sortCoinStates at hok
    injection hok with h
    subst h
    simp at hy
  | cons x xs ih =>
    intro t hok y hy
    unfold sortCoinStates at hok
    cases hrec : sortCoinStates xs with
    | error e => rw [hrec] at hok; simp at hok
    | ok t1 =>
      rw [hrec] at hok
      rcases insertSorted_mem x t1 t hok y hy with rfl | h1
      · exact List.mem_cons_self _ _
      · exact List.mem_cons_of_mem _ (ih t1 hrec y h1)

theorem foldProcess_ledger (env : WalletEnv) (allU : List TransactionRecord)
    (h : Nat) (L0 : List WalletCoinRecord)
    (hL0 : ∀ r ∈ L0, r.confirmed_height ≤ h ∧ r.spent_height = 0 ∧ r.spent = false) :
    ∀ (l : List CoinState) (acc : NcsAcc),
      (∀ cs ∈ l, (∀ c, cs.created_height = some c → h < c) ∧
        (∀ sp, cs.spent_height = some sp → h < sp) ∧
        (cs.spent_height = none → findCoinRecord L0 cs.coin.name = none)) →
      LedgerInv h L0 acc.st.coin_records →
      LedgerInv h L0 ((l.foldl (processOneCoinState env allU) acc)).st.coin_records := by
  intro l
  induction l with
  | nil => intro acc _ hinv; exact hinv
  | cons cs rest ih =>
    intro acc hall hinv
    rw [List.foldl_cons]
    obtain ⟨h1, h2, h3⟩ := hall cs (List.mem_cons_self _ _)
    exact ih _ (fun z hz => hall z (List.mem_cons_of_mem _ hz))
      (processOneCoinState_ledger env allU h L0 hL0 acc cs h1 h2 h3 hinv)

theorem applyBatch_ledger (env : WalletEnv) (h : Nat) (L0 : List WalletCoinRecord)
    (hL0 : ∀ r ∈ L0, r.confirmed_height ≤ h ∧ r.spent_height = 0 ∧ r.spent = false)
    (s : WalletState) (b : List CoinState × Option Nat × Option Nat)
    (hb : (∀ cs ∈ b.1, (∀ c, cs.created_height = some c → h < c) ∧
        (∀ sp, cs.spent_height = some sp → h < sp) ∧
        (cs.spent_height = none → findCoinRecord L0 cs.coin.name = none)) ∧
      (∀ f, b.2.1 = some f → h ≤ f))
    (hinv : LedgerInv h L0 s.coin_records) :
    LedgerInv h L0 (applyBatch env s b).coin_records := by
  unfold applyBatch newCoinState
  cases hsort : sortCoinStates b.1 with
  | error e => exact hinv
  | ok sorted =>
    have hmem := sortCoinStates_mem b.1 sorted hsort
    have hcsall : ∀ cs ∈ sorted, (∀ c, cs.created_height = some c → h < c) ∧
        (∀ sp, cs.spent_height = some sp → h < sp) ∧
        (cs.spent_height = none → findCoinRecord L0 cs.coin.name = none) :=
      fun cs hcs => hb.1 cs (hmem cs hcs)
    have hinv1 : LedgerInv h L0
        (if rollbackCondition b.2.1 b.2.2 then reorgRollback s (b.2.1.getD 0) else s).coin_records := by
      by_cases hcond : rollbackCondition b.2.1 b.2.2 = true
      · rw [if_pos hcond]
        cases hf : b.2.1 with
        | none => rw [hf] at hcond; simp [rollbackCondition] at hcond
        | some f =>
          have hfh : h ≤ f := hb.2 f hf
          show LedgerInv h L0 (coinRollbackToBlock f s.coin_records)
          exact LedgerInv_rollback h f hfh L0 _ hinv
      · rw [if_neg hcond]
        exact hinv
    exact foldProcess_ledger env (getAllUnconfirmed s.tx_records) h L0 hL0 sorted
      { st := if rollbackCondition b.2.1 b.2.2 then reorgRollback s (b.2.1.getD 0) else s
        added := [], removed := [], outgoing_cache := [], trade_adds := [], trade_removed := [] }
      hcsall hinv1

/-- Claim C4 (amended): starting from a ledger whose records are confirmed
at or below `h` and unspent (keys unique), applying any sequence of
coin-state batches through new_coin_state whose heights are all above `h`
(any in-batch reorg also rolls back no lower than `h`) and whose
created-but-unspent states concern coins not already in the ledger, then
running reorg_rollback's ledger rollback to `h`, restores the coin ledger
to exactly its pre-sequence contents. -/
theorem claim_C4 (env : WalletEnv)
    (batches : List (List CoinState × Option Nat × Option Nat))
    (s0 : WalletState) (h : Nat)
    (hL0 : ∀ r ∈ s0.coin_records, r.confirmed_height ≤ h ∧ r.spent_height = 0 ∧ r.spent = false)
    (hnd : (s0.coin_records.map (fun x => x.coin.name)).Nodup)
    (hB : ∀ b ∈ batches, (∀ cs ∈ b.1, (∀ c, cs.created_height = some c → h < c) ∧
        (∀ sp, cs.spent_height = some sp → h < sp) ∧
        (cs.spent_height = none → findCoinRecord s0.coin_records cs.coin.name = none)) ∧
      (∀ f, b.2.1 = some f → h ≤ f)) :
    ∀ n, findCoinRecord (coinRollbackToBlock h (applyBatches env batches s0).coin_records) n
      = findCoinRecord s0.coin_records n := by
  have hbase : LedgerInv h s0.coin_records s0.coin_records := by
    refine ⟨?_, hnd⟩
    intro n
    rw [coinRollbackToBlock_clean h _ hL0]
  have hfold : ∀ (bs : List (List CoinState × Option Nat × Option Nat)) (s : WalletState),
      (∀ b ∈ bs, (∀ cs ∈ b.1, (∀ c, cs.created_height = some c → h < c) ∧
          (∀ sp, cs.spent_height = some sp → h < sp) ∧
          (cs.spent_height = none → findCoinRecord s0.coin_records cs.coin.name = none)) ∧
        (∀ f, b.2.1 = some f → h ≤ f)) →
      LedgerInv h s0.coin_records s.coin_records →
      LedgerInv h s0.coin_records (applyBatches env bs s).coin_records := by
    intro bs
    induction bs with
    | nil => intro s _ hinv; exact hinv
    | cons b rest ih =>
      intro s hall hinv
      unfold applyBatches
      rw [List.foldl_cons]
      exact ih (applyBatch env s b)
        (fun b2 hb2 => hall b2 (List.mem_cons_of_mem _ hb2))
        (applyBatch_ledger env h s0.coin_records hL0 s b
          (hall b (List.mem_cons_self _ _)) hinv)
  exact (hfold batches s0 hB hbase).1

/-- Counterexample to claim C4 as stated: a batch observing a coin created
at height 5 (below the rollback height 10) applied to an empty ledger; the
roundtrip keeps the record, so the ledger does not return to its pre-batch
contents. -/
theorem claim_C4_counterexample :
    findCoinRecord
      (coinRollbackToBlock 10
        (applyBatches envOwn1 [([⟨⟨0, 1, 7⟩, some 5, none⟩], none, none)]
          emptyState).coin_records)
      (⟨0, 1, 7⟩ : Coin).name
    ≠ findCoinRecord emptyState.coin_records (⟨0, 1, 7⟩ : Coin).name := by
  decide

/-- Witness for claim C4: a fresh coin created at height 20 applied to the
empty ledger; the rollback to 10 removes it again. -/
theorem claim_C4_witness :
    findCoinRecord
      (coinRollbackToBlock 10
        (applyBatches envOwn1 [([⟨⟨0, 1, 7⟩, some 20, none⟩], none, none)]
          emptyState).coin_records)
      (⟨0, 1, 7⟩ : Coin).name
    = findCoinRecord emptyState.coin_records (⟨0, 1, 7⟩ : Coin).name :=
  claim_C4 envOwn1 [([⟨⟨0, 1, 7⟩, some 20, none⟩], none, none)] emptyState 10
    (by intro r hr; simp [emptyState] at hr)
    (by decide)
    (by
      intro b hb
      rw [List.mem_singleton] at hb
      subst hb
      refine ⟨?_, ?_⟩
      · intro cs hcs
        rw [List.mem_singleton] at hcs
        subst hcs
        refine ⟨?_, ?_, ?_⟩
        · intro c hc
          injection hc with h2
          omega
        · intro sp hsp
          simp at hsp
        · intro _
          rfl
      · intro f hf
        simp at hf)
    (⟨0, 1, 7⟩ : Coin).name
